import Mathlib

/-!
Verification of the generator/permuter composition engine of `protofuzz`
(`protofuzz/gen.py`), as a shallow embedding in Lean 4.

Modelling conventions, mapped line by line from `gen.py`:

* Python values flowing through generators are modelled by `PyVal`.
  Python `None` is the constructor `PyVal.none`; `ValueGenerator.__init__`
  sets `self._cached_value = None`, i.e. `cached = PyVal.none`, which is
  why a produced `None` is indistinguishable from a never-started stream.
* `float('inf')` limits versus concrete numeric limits are the type `Lim`;
  `inf - 1 = inf` is `Lim.dec .inf = .inf`, and the `self._limit == 0`
  test is `Lim.isZero`.
* Exceptions are the type `Err`.  `Permuter.MessageNotFound` is raised
  with two distinct messages, modelled by the two constructors
  `Err.pathUnresolved` ("Path ... unresolved to member.") and
  `Err.badElementPath` ("Bad element path [wrong type]").  The
  `RuntimeError` raised by `IterValueGenerator.get` is `Err.notStarted`;
  `StopIteration` is `Err.stopIteration`; calling `next` on a generator
  whose `_iter` is still `None` is Python `TypeError`, `Err.typeErrorNotIterable`;
  Python `RecursionError` (reachable through dependency cycles) is
  `Err.recursionError`.
* Mutable objects become explicit state passing.  The object graph of a
  `Permuter` and its children is the tree `Gen`; `DependentValueGenerator`
  stores in Python a direct object reference to its target, which we model
  as the child-index address (`List Nat`) of the target inside the permuter
  the dependency was declared on (the root of all our evaluations).  This is
  observationally equivalent as long as the tree is not restructured after
  wiring, which is the case for every iteration-only scenario below: plain
  iteration never replaces a node, it only updates fields in place.
* Methods that mutate return the new state; methods that can raise return
  `Except Err` or pair the new state with an `Option Err`.
* Python generators (`step_generator`) are modelled by their complete
  deterministic behaviour: the list of intermediate child states after each
  `yield`, the terminal exception of the first failing `next`, and the final
  (possibly mutated-by-the-failed-step) child states.  The stepping
  semantics is developed for permuters whose independent children are
  `IterValueGenerator` leaves (flat permuters), which is the shape every
  cardinality/ordering claim quantifies over; `permRun` answers `none` on
  shapes outside this fragment and on the genuinely non-terminating one
  (a `Zip` with no independent children and an unbounded limit).
-/

namespace Protofuzz

/-- A Python value as seen by `gen.py`: `None`, numbers, strings, and the
labeled tuples produced by `Permuter.get`. -/
inductive PyVal where
  | none : PyVal
  | int : Int → PyVal
  | str : String → PyVal
  | tuple : List (String × PyVal) → PyVal

/-- `self._limit`: either `float('inf')` (the constructor default) or a
natural number set through `set_limit`. -/
inductive Lim where
  | inf : Lim
  | fin : Nat → Lim
  deriving DecidableEq

/-- The test `self._limit == 0` in `ValueGenerator.__next__` and
`Permuter.__next__`. -/
def Lim.isZero : Lim → Bool
  | .fin 0 => true
  | _ => false

/-- `self._limit = self._limit - 1`; on `float('inf')` subtraction keeps
`inf`.  (Only ever executed after the `isZero` test failed.) -/
def Lim.dec : Lim → Lim
  | .inf => .inf
  | .fin n => .fin (n - 1)

/-- The exceptions raised by `gen.py`, see the module comment for the
correspondence. -/
inductive Err where
  | stopIteration : Err
  | notStarted : Err
  | typeErrorNotIterable : Err
  | pathUnresolved : Err
  | badElementPath : Err
  | recursionError : Err
  deriving DecidableEq

/-- The state of an `IterValueGenerator`: `self._name`, `self._values`,
`self._iter` (`none` until `__iter__` ran, otherwise the cursor into
`values`), `self._cached_value`, `self._limit`. -/
structure IterValueGenerator where
  name : String
  values : List PyVal
  iter : Option Nat
  cached : PyVal
  limit : Lim

/-- `IterValueGenerator.__init__(name, values)`: `_iter = None`,
`_cached_value = None`, `_limit = float('inf')`. -/
def mkIterValueGenerator (name : String) (values : List PyVal) : IterValueGenerator :=
  { name := name, values := values, iter := Option.none, cached := PyVal.none, limit := .inf }

/-- `IterValueGenerator.__iter__`: `self._iter = iter(self._values)`. -/
def IterValueGenerator.toIter (g : IterValueGenerator) : IterValueGenerator :=
  { g with iter := some 0 }

/-- `IterValueGenerator.__next__` followed by the inherited
`ValueGenerator.__next__`, in source order:
1. `self._cached_value = next(self._iter)` — `TypeError` if `_iter` is
   still `None`, `StopIteration` past the end of `_values`;
2. `if self._limit == 0: raise StopIteration` — note the cache/cursor
   mutation of step 1 is kept;
3. `self._limit = self._limit - 1`;
4. `return self.get()` — `RuntimeError` if the freshly cached value is
   `None` (the C10 sentinel collision).
Returns the error (if any) together with the state after the call. -/
def IterValueGenerator.next (g : IterValueGenerator) : Option Err × IterValueGenerator :=
  match g.iter with
  | Option.none => (some .typeErrorNotIterable, g)
  | some p =>
    match g.values[p]? with
    | Option.none => (some .stopIteration, g)
    | some v =>
      let g1 : IterValueGenerator := { g with cached := v, iter := some (p + 1) }
      if g.limit.isZero then (some .stopIteration, g1)
      else
        let g2 : IterValueGenerator := { g1 with limit := g.limit.dec }
        match v with
        | PyVal.none => (some .notStarted, g2)
        | _ => (Option.none, g2)

/-- `IterValueGenerator.get`: raise unless a value has been cached. -/
def IterValueGenerator.get (g : IterValueGenerator) : Except Err PyVal :=
  match g.cached with
  | PyVal.none => .error .notStarted
  | v => .ok v

/-- `ValueGenerator.set_limit`. -/
def IterValueGenerator.setLimit (g : IterValueGenerator) (l : Lim) : IterValueGenerator :=
  { g with limit := l }

/-- Characterization of a successful `IterValueGenerator.next`: the cursor
was at some in-range position `p`, the element there was not `None`, the
limit was not zero, and the new state caches that element, moves the cursor
to `p + 1` and decrements the limit. -/
theorem IterValueGenerator.next_ok {g g1 : IterValueGenerator}
    (h : g.next = (Option.none, g1)) :
    ∃ p v, g.iter = some p ∧ g.values[p]? = some v ∧ v ≠ PyVal.none ∧
      g.limit.isZero = false ∧
      g1 = { name := g.name, values := g.values, iter := some (p + 1),
             cached := v, limit := g.limit.dec } := by
  unfold IterValueGenerator.next at h
  split at h
  · simp at h
  · rename_i p hi
    split at h
    · simp at h
    · rename_i v hv
      split at h
      · simp at h
      · rename_i hz
        split at h
        · simp at h
        · rename_i hvn
          refine ⟨p, v, hi, hv, ?_, by simpa using hz, ?_⟩
          · intro hcontra; subst hcontra; exact hvn rfl
          · simpa [Prod.ext_iff] using h.symm

/-- A successful `next` increments an in-range cursor (projection of
`next_ok` used for termination). -/
theorem IterValueGenerator.next_ok_iter {g g1 : IterValueGenerator}
    (h : g.next = (Option.none, g1)) :
    ∃ p, g.iter = some p ∧ p < g.values.length ∧
      g1.iter = some (p + 1) ∧ g1.values = g.values := by
  obtain ⟨p, v, hi, hv, -, -, hg1⟩ := next_ok h
  exact ⟨p, hi, (List.getElem?_eq_some.mp hv).1, by simp [hg1], by simp [hg1]⟩

/-- The complete behaviour of repeatedly calling `next` on an
`IterValueGenerator` (for example under `list(...)` after `iter(...)`, or
under a `for` loop inside a stepping strategy): the list of states after
each successful call, the exception of the first failing call, and the
state after that failing call (which may have mutated `cached`/`iter`). -/
def IterValueGenerator.iterAll (g : IterValueGenerator) :
    List IterValueGenerator × Err × IterValueGenerator :=
  match h : g.next with
  | (some e, gf) => ([], e, gf)
  | (Option.none, g1) =>
    let r := g1.iterAll
    (g1 :: r.1, r.2.1, r.2.2)
  termination_by g.values.length - (g.iter.getD g.values.length)
  decreasing_by
    obtain ⟨p, hi, hlt, hi1, hv1⟩ := IterValueGenerator.next_ok_iter h
    simp [hi, hi1, hv1]
    omega

/-- The two concrete `Permuter` subclasses of `gen.py`. -/
inductive PermKind where
  | zip : PermKind
  | product : PermKind
  deriving DecidableEq

/-- The object tree of generators.  `iterv` is an `IterValueGenerator`
leaf; `dependent` is a `DependentValueGenerator` (name, the child-index
address of its `_target` relative to the permuter the dependency was
declared on, its `_action`, and the inherited `_limit`); `permuter` is a
`Permuter` with its strategy subclass, `_name`, `_generators` and
`_limit`. -/
inductive Gen where
  | iterv : IterValueGenerator → Gen
  | dependent : String → List Nat → (PyVal → PyVal) → Lim → Gen
  | permuter : PermKind → String → List Gen → Lim → Gen

/-- `ValueGenerator.name()`. -/
def Gen.name : Gen → String
  | .iterv g => g.name
  | .dependent n _ _ _ => n
  | .permuter _ n _ _ => n

/-- The `isinstance(_, DependentValueGenerator)` test of
`Permuter.get_independent_generators`. -/
def Gen.isDependent : Gen → Bool
  | .dependent _ _ _ _ => true
  | _ => false

/-- `Permuter.get_independent_generators`: the children that produce their
own values. -/
def independentGenerators (gens : List Gen) : List Gen :=
  gens.filter (fun g => !g.isDependent)

/-- `ValueGenerator.set_limit` (all classes share the `_limit` field). -/
def Gen.setLimit : Gen → Lim → Gen
  | .iterv g, l => .iterv (g.setLimit l)
  | .dependent n t a _, l => .dependent n t a l
  | .permuter k n cs _, l => .permuter k n cs l

mutual

/-- Number of nodes of a generator tree (used to size the recursion fuel
of `Gen.get`, mirroring the Python call stack; dependency cycles exhaust
it and surface as `Err.recursionError`, Python `RecursionError`). -/
def Gen.size : Gen → Nat
  | .iterv _ => 1
  | .dependent _ _ _ _ => 1
  | .permuter _ _ cs _ => 1 + Gen.sizeList cs

/-- Sum of `Gen.size` over a children list. -/
def Gen.sizeList : List Gen → Nat
  | [] => 0
  | c :: cs => c.size + Gen.sizeList cs

end

mutual

/-- `__iter__`.  For an `IterValueGenerator` it re-creates `self._iter`;
for a `DependentValueGenerator` the inherited `ValueGenerator.__iter__`
returns `self` unchanged; for a `Permuter` it runs
`_update_independent_generators`, which calls `iter(_)` on every
independent child (recursively re-entering this function) and leaves
dependent children untouched.  This same function therefore also models
`_update_independent_generators` itself. -/
def Gen.toIter : Gen → Gen
  | .iterv g => .iterv g.toIter
  | .dependent n t a l => .dependent n t a l
  | .permuter k n cs l => .permuter k n (Gen.resetChildren cs) l

/-- The `[iter(_) for _ in independents]` part of
`_update_independent_generators`: reset every independent child, leave
dependent children untouched. -/
def Gen.resetChildren : List Gen → List Gen
  | [] => []
  | c :: cs => (if c.isDependent then c else c.toIter) :: Gen.resetChildren cs

end

/-- `Permuter.__init__(name, *generators)`: stores the children and runs
`_update_independent_generators` once. -/
def mkPermuter (k : PermKind) (name : String) (gens : List Gen) : Gen :=
  (Gen.permuter k name gens .inf).toIter

/-- Look up the node at a child-index address. -/
def nodeAt : Gen → List Nat → Option Gen
  | g, [] => some g
  | .permuter _ _ cs _, i :: rest =>
      match cs[i]? with
      | some c => nodeAt c rest
      | Option.none => Option.none
  | _, _ :: _ => Option.none

/-- Functionally replace the node at a child-index address (the Python
`container[idx] = ...` assignment seen from the root). -/
def replaceAt : Gen → List Nat → Gen → Gen
  | _, [], gNew => gNew
  | .permuter k n cs l, i :: rest, gNew =>
      match cs[i]? with
      | some c => .permuter k n (cs.set i (replaceAt c rest gNew)) l
      | Option.none => .permuter k n cs l
  | g, _ :: _, _ => g

/-- `next((_ for _ in ptr._generators if _.name() == component), None)`:
first child whose name matches, with its index. -/
def findChild (cs : List Gen) (nm : String) : Option (Nat × Gen) :=
  match cs with
  | [] => Option.none
  | c :: rest =>
      if c.name = nm then some (0, c)
      else (findChild rest nm).map (fun p => (p.1 + 1, p.2))

/-- The loop body of `Permuter._resolve_child`: walk the dot-separated
components; at each component the current object must be a `Permuter`
(else `MessageNotFound("Bad element path [wrong type]")`), and the
component must name one of its children (else
`MessageNotFound("Path ... unresolved to member.")`).  Returns the
child-index address of the resolved object; the enclosing permuter
(`ptr` in the source) is the node at the address without its last
index. -/
def resolveComponents (addr : List Nat) (g : Gen) : List String → Except Err (List Nat)
  | [] => .ok addr
  | comp :: rest =>
      match g with
      | .permuter _ _ cs _ =>
          match findChild cs comp with
          | some (i, c) => resolveComponents (addr ++ [i]) c rest
          | Option.none => .error .pathUnresolved
      | _ => .error .badElementPath

/-- `Permuter._resolve_child(path)`.  A dot-delimited path enters the
embedding as its component list — the `path.split('.')` computed on entry
(`'a.b'` becomes `["a", "b"]`, a plain name `'a'` becomes `["a"]`; Python's
`split` never returns an empty list). -/
def resolveChild (root : Gen) (path : List String) : Except Err (List Nat) :=
  resolveComponents [] root path

/-- `Permuter.make_dependent(source, target, action)`:
* `if not self._generators: return` — a childless permuter returns at once
  (even for unresolvable paths);
* resolve `source` (giving `src_permuter` and `src`), resolve `target`
  (giving `dest`); both failures propagate before any mutation happens;
* `container[idx] = DependentValueGenerator(src.name(), dest, action)` —
  the replacement sits at the same index of the same children list, carries
  the old name, and its freshly constructed `_limit` is `inf`;
* `self._update_independent_generators()` — modelled by `Gen.toIter`.
The fall-through arms are unreachable: `resolveChild` only returns
addresses of existing nodes, and the method only exists on `Permuter`. -/
def makeDependent (root : Gen) (source target : List String)
    (action : PyVal → PyVal) : Except Err Gen :=
  match root with
  | .permuter _ _ [] _ => .ok root
  | .permuter _ _ _ _ =>
      match resolveChild root source with
      | .error e => .error e
      | .ok srcAddr =>
          match resolveChild root target with
          | .error e => .error e
          | .ok destAddr =>
              match nodeAt root srcAddr with
              | some src =>
                  .ok ((replaceAt root srcAddr
                    (.dependent src.name destAddr action .inf)).toIter)
              | Option.none => .error .pathUnresolved
  | _ => .error .badElementPath

mutual

/-- `get()` with explicit recursion fuel standing for the Python stack:
* `IterValueGenerator.get` reads the cache (`RuntimeError` when unset);
* `DependentValueGenerator.get` is `self._action(self._target.get())`,
  the target being resolved by its address from `root`;
* `Permuter.get` is `tuple([(x.name(), x.get()) for x in self._generators])`,
  left to right, first failure propagating. -/
def Gen.get (root : Gen) : Nat → Gen → Except Err PyVal
  | 0, _ => .error .recursionError
  | _ + 1, .iterv g => g.get
  | fuel + 1, .dependent _ tgt act _ =>
      match nodeAt root tgt with
      | some t => (Gen.get root fuel t).map act
      | Option.none => .error .recursionError
  | fuel + 1, .permuter _ _ cs _ =>
      (Gen.getList root fuel cs).map PyVal.tuple
  termination_by fuel g => (fuel, 0)

/-- The list comprehension inside `Permuter.get`. -/
def Gen.getList (root : Gen) : Nat → List Gen → Except Err (List (String × PyVal))
  | _, [] => .ok []
  | fuel, c :: cs =>
      match Gen.get root fuel c with
      | .error e => .error e
      | .ok v =>
          match Gen.getList root fuel cs with
          | .error e => .error e
          | .ok rest => .ok ((c.name, v) :: rest)
  termination_by fuel cs => (fuel, cs.length + 1)

end

/-- `get()` on the root itself, with fuel ample for every acyclic
dependency wiring (one unit per tree level or dependency hop, bounded by
the node count on any non-repeating evaluation path). -/
def Gen.getCurrent (root : Gen) : Except Err PyVal :=
  Gen.get root (root.size + 1) root

/-- Rewrite for `iterAll` when the next `next` call fails. -/
theorem IterValueGenerator.iterAll_stop {g gf : IterValueGenerator} {e : Err}
    (h : g.next = (some e, gf)) : g.iterAll = ([], e, gf) := by
  unfold IterValueGenerator.iterAll
  split
  · rename_i e2 gf2 h2
    rw [h] at h2
    cases h2
    rfl
  · rename_i g1 h2
    rw [h] at h2
    cases h2

/-- Rewrite for `iterAll` when the next `next` call succeeds. -/
theorem IterValueGenerator.iterAll_ok {g g1 : IterValueGenerator}
    (h : g.next = (Option.none, g1)) :
    g.iterAll = (g1 :: g1.iterAll.1, g1.iterAll.2.1, g1.iterAll.2.2) := by
  conv_lhs => unfold IterValueGenerator.iterAll
  split
  · rename_i e2 gf2 h2
    rw [h] at h2
    cases h2
  · rename_i g2 h2
    rw [h] at h2
    cases h2
    rfl

/-- The body of the `for generator in generators: next(generator)` loop in
`Zip.step_generator`: advance every generator in declared order, stopping
at the first exception (the already-advanced prefix keeps its new
states). -/
def zipStepAll : List IterValueGenerator → Option Err × List IterValueGenerator
  | [] => (Option.none, [])
  | l :: rest =>
      match l.next with
      | (some e, l1) => (some e, l1 :: rest)
      | (Option.none, l1) =>
          let r := zipStepAll rest
          (r.1, l1 :: r.2)

/-- The complete behaviour of the `Zip.step_generator` generator over a
non-empty captured iterator list: per step it advances every generator in
sync and yields; `StopIteration` of any child (caught together with
`GeneratorExit` by the `except` clause) ends the generator, any other
exception propagates.  Returns the child states after each yield, the
terminal exception of the first failing `next(self._step)`, and the final
child states (including the partial advancement of the aborted step). -/
def Zip.stepGenerator (l : IterValueGenerator) (rest : List IterValueGenerator) :
    List (List IterValueGenerator) × Err × List IterValueGenerator :=
  match h : l.next with
  | (some e, l1) => ([], e, l1 :: rest)
  | (Option.none, l1) =>
      match zipStepAll rest with
      | (some e, rest1) => ([], e, l1 :: rest1)
      | (Option.none, rest1) =>
          let r := Zip.stepGenerator l1 rest1
          ((l1 :: rest1) :: r.1, r.2.1, r.2.2)
  termination_by l.values.length - (l.iter.getD l.values.length)
  decreasing_by
    obtain ⟨p, hi, hlt, hi1, hv1⟩ := IterValueGenerator.next_ok_iter h
    simp [hi, hi1, hv1]
    omega

/-- Rewrite for `Zip.stepGenerator` when the head generator fails. -/
theorem Zip.stepGenerator_head_fail {l l1 : IterValueGenerator} {e : Err}
    {rest : List IterValueGenerator} (h : l.next = (some e, l1)) :
    Zip.stepGenerator l rest = ([], e, l1 :: rest) := by
  conv_lhs => unfold Zip.stepGenerator
  split
  · rename_i e2 l2 h2
    rw [h] at h2
    cases h2
    rfl
  · rename_i l2 h2
    rw [h] at h2
    cases h2

/-- Rewrite for `Zip.stepGenerator` when the head advances but a later
generator fails. -/
theorem Zip.stepGenerator_rest_fail {l l1 : IterValueGenerator} {e : Err}
    {rest rest1 : List IterValueGenerator} (h : l.next = (Option.none, l1))
    (h2 : zipStepAll rest = (some e, rest1)) :
    Zip.stepGenerator l rest = ([], e, l1 :: rest1) := by
  conv_lhs => unfold Zip.stepGenerator
  split
  · rename_i e2 l2 h3
    rw [h] at h3
    cases h3
  · rename_i l2 h3
    rw [h] at h3
    cases h3
    rw [h2]

/-- Rewrite for `Zip.stepGenerator` when the whole step succeeds. -/
theorem Zip.stepGenerator_ok {l l1 : IterValueGenerator}
    {rest rest1 : List IterValueGenerator} (h : l.next = (Option.none, l1))
    (h2 : zipStepAll rest = (Option.none, rest1)) :
    Zip.stepGenerator l rest =
      ((l1 :: rest1) :: (Zip.stepGenerator l1 rest1).1,
       (Zip.stepGenerator l1 rest1).2.1, (Zip.stepGenerator l1 rest1).2.2) := by
  conv_lhs => unfold Zip.stepGenerator
  split
  · rename_i e2 l2 h3
    rw [h] at h3
    cases h3
  · rename_i l2 h3
    rw [h] at h3
    cases h3
    rw [h2]

/-- The `for item in first: for items in self.step_generator(rest): yield`
structure of `Product.step_generator`, one level: `items` are the
successive states of the first generator (already computed by its
`for`-loop iteration), `efirst`/`lfin` the exception and state its
iteration ends with, `stepRest` the behaviour of the recursively created
inner generator (which re-resets and re-runs the remaining generators for
every item), threaded over the current states of the remaining
generators. -/
def prodFold
    (stepRest : List IterValueGenerator →
      List (List IterValueGenerator) × Err × List IterValueGenerator)
    (efirst : Err) (lfin : IterValueGenerator) :
    List IterValueGenerator → List IterValueGenerator →
    List (List IterValueGenerator) × Err × List IterValueGenerator
  | [], restSt => ([], efirst, lfin :: restSt)
  | item :: more, restSt =>
      match stepRest restSt with
      | (snaps, .stopIteration, restFin) =>
          let r := prodFold stepRest efirst lfin more restFin
          (snaps.map (fun row => item :: row) ++ r.1, r.2.1, r.2.2)
      | (snaps, e2, restFin) => (snaps.map (fun row => item :: row), e2, item :: restFin)

/-- The complete behaviour of `Product.step_generator`, recursing over the
captured iterator list exactly like the source: the base case yields `()`
once; otherwise iterate the first generator (the `for` loop begins with
`iter(first)`, which for an `IterValueGenerator` resets its cursor) and
run a fresh inner generator for the remaining ones per item.  The first
argument is the recursion skeleton (the list at capture time), the second
the current states (same list positionwise; they coincide at the top-level
call and stay aligned one to one throughout). -/
def prodRunner : List IterValueGenerator → List IterValueGenerator →
    List (List IterValueGenerator) × Err × List IterValueGenerator
  | [], states => ([[]], .stopIteration, states)
  | _ :: skelRest, states =>
      match states with
      | [] => ([], .stopIteration, [])
      | l :: restSt =>
          let r := (l.toIter).iterAll
          prodFold (prodRunner skelRest) r.2.1 r.2.2 r.1 restSt

/-- `Product.step_generator` over the captured iterator list. -/
def Product.stepGenerator (gens : List IterValueGenerator) :
    List (List IterValueGenerator) × Err × List IterValueGenerator :=
  prodRunner gens gens

/-- Extract the independent children when they are all
`IterValueGenerator` leaves (the flat-permuter fragment whose stepping
semantics this development covers); `none` when an independent child is a
nested permuter. -/
def independentLeaves : List Gen → Option (List IterValueGenerator)
  | [] => some []
  | .iterv g :: cs => (independentLeaves cs).map (fun ls => g :: ls)
  | .dependent _ _ _ _ :: cs => independentLeaves cs
  | .permuter _ _ _ _ :: _ => Option.none

/-- Write updated independent-leaf states back into the children list, in
order (the in-place mutation of the shared child objects, seen from the
tree). -/
def writeIndependents : List Gen → List IterValueGenerator → List Gen
  | [], _ => []
  | .dependent n t a l :: cs, sts => .dependent n t a l :: writeIndependents cs sts
  | .iterv st :: cs, [] => .iterv st :: writeIndependents cs []
  | .iterv _ :: cs, st :: sts => .iterv st :: writeIndependents cs sts
  | .permuter k n cc l :: cs, sts => .permuter k n cc l :: writeIndependents cs sts

/-- The consumption loop of iteration over a `Permuter`
(`Permuter.__next__` repeated until an exception): each call first runs
`next(self._step)` (popping the next snapshot, or raising the step
generator terminal), then tests `self._limit == 0` (closing the step
generator and raising `StopIteration`, with the popped step side effects
kept), then decrements the limit and returns `self.get()` on the state
the step produced (a `get` failure propagates out of `__next__`).
Returns the emitted values, the terminal exception, the final independent
states and the final limit. -/
def consume (mk : List IterValueGenerator → Gen) :
    Lim → List (List IterValueGenerator) → Err → List IterValueGenerator →
    List PyVal × Err × List IterValueGenerator × Lim
  | lim, [], term, fins => ([], term, fins, lim)
  | lim, s :: more, term, fins =>
      if lim.isZero then ([], .stopIteration, s, lim)
      else
        let lim1 := lim.dec
        match (mk s).getCurrent with
        | .error e => ([], e, s, lim1)
        | .ok v =>
            let r := consume mk lim1 more term fins
            (v :: r.1, r.2.1, r.2.2.1, r.2.2.2)

/-- Full iteration of a stream from the top: `__iter__` once, then
`__next__` until an exception, collecting the returned values — the
behaviour of `list(stream)`.  Returns the emitted values, the terminal
exception (`.stopIteration` for normal exhaustion) and the final state.
Answers `none` outside the modelled fragment: iterating a bare
`DependentValueGenerator` (whose target address is only meaningful
relative to a root), a permuter with a nested-permuter independent child,
and the genuinely non-terminating `Zip` with no independent children, an
unbounded limit and a succeeding `get` (Python loops forever there). -/
def permRun (g : Gen) : Option (List PyVal × Err × Gen) :=
  match g with
  | .iterv l =>
      let r := (l.toIter).iterAll
      some (r.1.map (fun st => st.cached), r.2.1, .iterv r.2.2)
  | .dependent _ _ _ _ => Option.none
  | .permuter k n cs lim =>
      let cs1 := Gen.resetChildren cs
      match independentLeaves cs1 with
      | Option.none => Option.none
      | some ils =>
          match k, ils with
          | .zip, [] =>
              -- `while True: yield` with nothing to advance: every
              -- `__next__` succeeds in stepping; only the limit or a
              -- failing `get` can end the iteration.
              (match lim, (Gen.permuter k n cs1 lim).getCurrent with
               | .inf, .ok _ => Option.none
               | .inf, .error e => some ([], e, .permuter k n cs1 .inf)
               | .fin 0, _ => some ([], .stopIteration, .permuter k n cs1 (.fin 0))
               | .fin (kk + 1), .error e => some ([], e, .permuter k n cs1 (.fin kk))
               | .fin (kk + 1), .ok v =>
                   some (List.replicate (kk + 1) v, .stopIteration, .permuter k n cs1 (.fin 0)))
          | .zip, i :: is =>
              let tr := Zip.stepGenerator i is
              let mk : List IterValueGenerator → Gen :=
                fun sts => Gen.permuter .zip n (writeIndependents cs1 sts) lim
              let r := consume mk lim tr.1 tr.2.1 tr.2.2
              some (r.1, r.2.1, Gen.permuter .zip n (writeIndependents cs1 r.2.2.1) r.2.2.2)
          | .product, ils2 =>
              let tr := Product.stepGenerator ils2
              let mk : List IterValueGenerator → Gen :=
                fun sts => Gen.permuter .product n (writeIndependents cs1 sts) lim
              let r := consume mk lim tr.1 tr.2.1 tr.2.2
              some (r.1, r.2.1, Gen.permuter .product n (writeIndependents cs1 r.2.2.1) r.2.2.2)

/-! ### Closed forms for the leaf pass -/

/-- The state of an `IterValueGenerator` that has consumed the values up to
index `i` inclusive during a pass with an unbounded limit. -/
def passState (nm : String) (vs : List PyVal) (i : Nat) : IterValueGenerator :=
  { name := nm, values := vs, iter := some (i + 1), cached := vs.getD i PyVal.none,
    limit := .inf }

/-- Closed form of a full leaf pass with an unbounded limit over a
`None`-free value suffix: the successive states consume the values in
order and the pass ends with plain exhaustion. -/
theorem iterAll_inf (nm : String) (vs : List PyVal) :
    ∀ (p : Nat) (c : PyVal), (∀ v ∈ vs.drop p, v ≠ PyVal.none) →
      (IterValueGenerator.mk nm vs (some p) c .inf).iterAll.1
          = (List.range (vs.length - p)).map (fun i => passState nm vs (p + i))
        ∧ (IterValueGenerator.mk nm vs (some p) c .inf).iterAll.2.1 = .stopIteration := by
  intro p c hnn
  generalize hn : vs.length - p = n
  induction n generalizing p c with
  | zero =>
      have hge : vs.length ≤ p := by omega
      have hnone : vs[p]? = Option.none := List.getElem?_eq_none hge
      have hnext : (IterValueGenerator.mk nm vs (some p) c .inf).next
          = (some .stopIteration, IterValueGenerator.mk nm vs (some p) c .inf) := by
        simp [IterValueGenerator.next, hnone]
      rw [IterValueGenerator.iterAll_stop hnext]
      simp
  | succ n ih =>
      have hlt : p < vs.length := by omega
      have hsome : vs[p]? = some vs[p] := List.getElem?_eq_getElem hlt
      have hdrop : vs.drop p = vs[p] :: vs.drop (p + 1) := List.drop_eq_getElem_cons hlt
      have hmem : vs[p] ∈ vs.drop p := by rw [hdrop]; exact List.mem_cons_self _ _
      have hvp : vs[p] ≠ PyVal.none := hnn _ hmem
      have hnext : (IterValueGenerator.mk nm vs (some p) c .inf).next
          = (Option.none, IterValueGenerator.mk nm vs (some (p + 1)) vs[p] .inf) := by
        simp only [IterValueGenerator.next, hsome]
        rcases h : vs[p] with _ | _ | _ | _
        · exact absurd h hvp
        all_goals simp [Lim.isZero, Lim.dec, ← h]
      rw [IterValueGenerator.iterAll_ok hnext]
      have hnn1 : ∀ v ∈ vs.drop (p + 1), v ≠ PyVal.none := by
        intro v hv
        exact hnn v (by rw [hdrop]; exact List.mem_cons_of_mem _ hv)
      obtain ⟨ih1, ih2⟩ := ih (p + 1) vs[p] hnn1 (by omega)
      refine ⟨?_, ih2⟩
      rw [ih1, List.range_succ_eq_map, List.map_cons, List.map_map]
      have hhead : passState nm vs (p + 0)
          = IterValueGenerator.mk nm vs (some (p + 1)) vs[p] .inf := by
        simp [passState, List.getD_eq_getElem?_getD, hsome]
      rw [show p + 0 = p from rfl] at hhead
      refine congrArg₂ _ (by rw [← hhead]; simp [passState]) ?_
      apply List.map_congr_left
      intro i _
      simp [Function.comp]
      congr 1
      omega

/-- `next` never changes `name` and `values`, and keeps an unbounded limit
unbounded. -/
theorem IterValueGenerator.next_cfg (g : IterValueGenerator) :
    (g.next.2).name = g.name ∧ (g.next.2).values = g.values ∧
      (g.limit = .inf → (g.next.2).limit = .inf) := by
  unfold IterValueGenerator.next
  split
  · simp
  · split
    · simp
    · split
      · simp
      · split <;> simp [Lim.dec] <;> intro hl <;> simp [hl, Lim.dec]

/-- `iterAll` never changes `name` and `values` of the final state, and
keeps an unbounded limit unbounded. -/
theorem IterValueGenerator.iterAll_cfg (g : IterValueGenerator) :
    (g.iterAll.2.2).name = g.name ∧ (g.iterAll.2.2).values = g.values ∧
      (g.limit = .inf → (g.iterAll.2.2).limit = .inf) := by
  generalize hn : g.values.length - (g.iter.getD g.values.length) = n
  induction n generalizing g with
  | zero =>
      match h : g.next with
      | (some e, gf) =>
          rw [IterValueGenerator.iterAll_stop h]
          have := IterValueGenerator.next_cfg g
          rw [h] at this
          exact this
      | (Option.none, g1) =>
          obtain ⟨p, hi, hlt, hi1, hv1⟩ := IterValueGenerator.next_ok_iter h
          rw [hi] at hn
          simp at hn
          omega
  | succ n ih =>
      match h : g.next with
      | (some e, gf) =>
          rw [IterValueGenerator.iterAll_stop h]
          have := IterValueGenerator.next_cfg g
          rw [h] at this
          exact this
      | (Option.none, g1) =>
          rw [IterValueGenerator.iterAll_ok h]
          have hcfg := IterValueGenerator.next_cfg g
          rw [h] at hcfg
          obtain ⟨p, hi, hlt, hi1, hv1⟩ := IterValueGenerator.next_ok_iter h
          have hrec := ih g1 (by rw [hv1, hi1]; rw [hi] at hn; simp at hn ⊢; omega)
          obtain ⟨r1, r2, r3⟩ := hrec
          refine ⟨by rw [r1, hcfg.1], by rw [r2, hcfg.2.1], ?_⟩
          intro hli
          exact r3 (hcfg.2.2 hli)

/-! ### Closed form for the Zip strategy -/

/-- `next` on a generator positioned at an in-range, non-`None` value with
an unbounded limit: advance to `passState`. -/
theorem IterValueGenerator.next_at (g : IterValueGenerator) (p : Nat)
    (hi : g.iter = some p) (hl : g.limit = .inf) (hlt : p < g.values.length)
    (hv : g.values[p] ≠ PyVal.none) :
    g.next = (Option.none, passState g.name g.values p) := by
  have hsome : g.values[p]? = some g.values[p] := List.getElem?_eq_getElem hlt
  simp only [IterValueGenerator.next, hi, hsome]
  rcases h : g.values[p] with _ | m | s | t
  · exact absurd h hv
  all_goals
    simp [hl, Lim.isZero, Lim.dec, passState, List.getD_eq_getElem?_getD, hsome, ← h]

/-- `next` on a generator whose cursor is past the end: plain
`StopIteration`, state unchanged. -/
theorem IterValueGenerator.next_past (g : IterValueGenerator) (p : Nat)
    (hi : g.iter = some p) (hge : g.values.length ≤ p) :
    g.next = (some .stopIteration, g) := by
  have hnone : g.values[p]? = Option.none := List.getElem?_eq_none hge
  simp [IterValueGenerator.next, hi, hnone]

/-- `zipStepAll` when every generator still has a value at cursor `p`:
all of them advance by one, in declared order. -/
theorem zipStepAll_ok (p : Nat) (sts : List IterValueGenerator)
    (hall : ∀ g ∈ sts, g.iter = some p ∧ g.limit = .inf ∧ ∀ v ∈ g.values, v ≠ PyVal.none)
    (hlen : ∀ g ∈ sts, p < g.values.length) :
    zipStepAll sts = (Option.none, sts.map (fun g => passState g.name g.values p)) := by
  induction sts with
  | nil => simp [zipStepAll]
  | cons g rest ih =>
      obtain ⟨hi, hl, hnn⟩ := hall g (by simp)
      have hlt := hlen g (by simp)
      have hnext := IterValueGenerator.next_at g p hi hl hlt
        (hnn _ (List.getElem_mem hlt))
      have hrest := ih (fun x hx => hall x (List.mem_cons_of_mem _ hx))
        (fun x hx => hlen x (List.mem_cons_of_mem _ hx))
      simp [zipStepAll, hnext, hrest]

/-- `zipStepAll` when some generator is exhausted at cursor `p` (and no
`None` values can fire first): the step aborts with `StopIteration`. -/
theorem zipStepAll_fail (p : Nat) (sts : List IterValueGenerator)
    (hall : ∀ g ∈ sts, g.iter = some p ∧ g.limit = .inf ∧ ∀ v ∈ g.values, v ≠ PyVal.none)
    (hex : ∃ g ∈ sts, g.values.length ≤ p) :
    ∃ sts2, zipStepAll sts = (some .stopIteration, sts2) := by
  induction sts with
  | nil => simp at hex
  | cons g rest ih =>
      obtain ⟨hi, hl, hnn⟩ := hall g (by simp)
      by_cases hge : g.values.length ≤ p
      · have hnext := IterValueGenerator.next_past g p hi hge
        exact ⟨g :: rest, by simp [zipStepAll, hnext]⟩
      · have hlt : p < g.values.length := by omega
        have hnext := IterValueGenerator.next_at g p hi hl hlt
          (hnn _ (List.getElem_mem hlt))
        have hex2 : ∃ x ∈ rest, x.values.length ≤ p := by
          obtain ⟨x, hx, hxl⟩ := hex
          rcases List.mem_cons.mp hx with rfl | hx2
          · omega
          · exact ⟨x, hx2, hxl⟩
        obtain ⟨sts2, hs⟩ := ih (fun x hx => hall x (List.mem_cons_of_mem _ hx)) hex2
        exact ⟨passState g.name g.values p :: sts2, by simp [zipStepAll, hnext, hs]⟩

/-- Closed form of the Zip strategy over lockstep states: with all
generators at cursor `p`, unbounded limits and `None`-free values, and
`cnt` exactly the least remaining count, the generator yields `cnt`
synchronized rows and then ends with plain exhaustion. -/
theorem zip_closed (cnt : Nat) :
    ∀ (p : Nat) (l : IterValueGenerator) (rest : List IterValueGenerator),
      (∀ g ∈ l :: rest, g.iter = some p ∧ g.limit = .inf ∧ ∀ v ∈ g.values, v ≠ PyVal.none) →
      (∀ g ∈ l :: rest, p + cnt ≤ g.values.length) →
      (∃ g ∈ l :: rest, g.values.length = p + cnt) →
      (Zip.stepGenerator l rest).1
          = (List.range cnt).map
              (fun j => (l :: rest).map (fun g => passState g.name g.values (p + j)))
        ∧ (Zip.stepGenerator l rest).2.1 = .stopIteration := by
  induction cnt with
  | zero =>
      intro p l rest hall _ hex
      obtain ⟨hi, hl, hnn⟩ := hall l (by simp)
      by_cases hge : l.values.length ≤ p
      · have hnext := IterValueGenerator.next_past l p hi hge
        rw [Zip.stepGenerator_head_fail hnext]
        simp
      · have hlt : p < l.values.length := by omega
        have hnext := IterValueGenerator.next_at l p hi hl hlt
          (hnn _ (List.getElem_mem hlt))
        have hex2 : ∃ x ∈ rest, x.values.length ≤ p := by
          obtain ⟨x, hx, hxl⟩ := hex
          rcases List.mem_cons.mp hx with rfl | hx2
          · omega
          · exact ⟨x, hx2, by omega⟩
        obtain ⟨sts2, hs⟩ := zipStepAll_fail p rest
          (fun x hx => hall x (List.mem_cons_of_mem _ hx)) hex2
        rw [Zip.stepGenerator_rest_fail hnext hs]
        simp
  | succ cnt ih =>
      intro p l rest hall hlen hex
      obtain ⟨hi, hl, hnn⟩ := hall l (by simp)
      have hlt : p < l.values.length := by
        have := hlen l (by simp)
        omega
      have hnext := IterValueGenerator.next_at l p hi hl hlt
        (hnn _ (List.getElem_mem hlt))
      have hrest := zipStepAll_ok p rest
        (fun x hx => hall x (List.mem_cons_of_mem _ hx))
        (fun x hx => by have := hlen x (List.mem_cons_of_mem _ hx); omega)
      rw [Zip.stepGenerator_ok hnext hrest]
      have hmap : passState l.name l.values p :: rest.map (fun g => passState g.name g.values p)
          = (l :: rest).map (fun g => passState g.name g.values p) := by
        simp
      have hih := ih (p + 1) (passState l.name l.values p)
        (rest.map (fun g => passState g.name g.values p))
        (by
          intro g hg
          rw [hmap] at hg
          obtain ⟨x, hx, rfl⟩ := List.mem_map.mp hg
          obtain ⟨_, _, hnn2⟩ := hall x hx
          exact ⟨rfl, rfl, hnn2⟩)
        (by
          intro g hg
          rw [hmap] at hg
          obtain ⟨x, hx, rfl⟩ := List.mem_map.mp hg
          have := hlen x hx
          simpa [passState] using by omega)
        (by
          obtain ⟨x, hx, hxl⟩ := hex
          refine ⟨passState x.name x.values p, ?_, ?_⟩
          · rw [hmap]
            exact List.mem_map.mpr ⟨x, hx, rfl⟩
          · simpa [passState] using by omega)
      refine ⟨?_, hih.2⟩
      rw [hih.1, List.range_succ_eq_map, List.map_cons, List.map_map]
      refine congrArg₂ _ (by simp) ?_
      apply List.map_congr_left
      intro j _
      have harith : p + 1 + j = p + j.succ := by omega
      simp only [Function.comp, List.map_cons, List.map_map]
      simp [passState, harith]

/-! ### Closed form for the Product strategy -/

/-- Spec-level rows of the product strategy: one state row per choice of
value positions, in nested-loop order (first generator slowest, last
fastest). -/
def prodRowsSpec : List IterValueGenerator → List (List IterValueGenerator)
  | [] => [[]]
  | l :: rest =>
      (List.range l.values.length).flatMap
        (fun i => (prodRowsSpec rest).map (fun row => passState l.name l.values i :: row))

/-- Name/values agreement with an unbounded current limit: the invariant
linking the capture-time skeleton of `prodRunner` with the threaded
current states. -/
def skelCompat (skel states : List IterValueGenerator) : Prop :=
  List.Forall₂ (fun a b => a.name = b.name ∧ a.values = b.values ∧ b.limit = .inf) skel states

/-- Behaviour of one `prodFold` level when the inner generator always
replays the same rows `R` and ends in plain exhaustion, preserving the
invariant `P` on the threaded states. -/
theorem prodFold_closed
    (stepRest : List IterValueGenerator →
      List (List IterValueGenerator) × Err × List IterValueGenerator)
    (P : List IterValueGenerator → Prop) (R : List (List IterValueGenerator))
    (hstep : ∀ sts, P sts →
      (stepRest sts).1 = R ∧ (stepRest sts).2.1 = .stopIteration ∧ P (stepRest sts).2.2)
    (e : Err) (lfin : IterValueGenerator) :
    ∀ (items restSt : List IterValueGenerator), P restSt →
      (prodFold stepRest e lfin items restSt).1
          = items.flatMap (fun item => R.map (fun row => item :: row))
        ∧ (prodFold stepRest e lfin items restSt).2.1 = e
        ∧ ∃ sts2, (prodFold stepRest e lfin items restSt).2.2 = lfin :: sts2 ∧ P sts2 := by
  intro items
  induction items with
  | nil =>
      intro restSt hP
      exact ⟨by simp [prodFold], by simp [prodFold], restSt, by simp [prodFold], hP⟩
  | cons item more ih =>
      intro restSt hP
      obtain ⟨h1, h2, h3⟩ := hstep restSt hP
      rcases hr : stepRest restSt with ⟨snaps, e2, restFin⟩
      rw [hr] at h1 h2 h3
      simp at h1 h2
      subst h1
      subst h2
      obtain ⟨ih1, ih2, sts2, ihfin, ihP⟩ := ih restFin h3
      refine ⟨?_, ?_, sts2, ?_, ihP⟩
      · simp only [prodFold, hr, ih1]
        simp [List.flatMap_cons]
      · simp only [prodFold, hr]
        exact ih2
      · simp only [prodFold, hr]
        exact ihfin

/-- Closed form of the Product strategy: with `None`-free values and
unbounded limits, the recursive generator yields exactly the nested-loop
rows `prodRowsSpec` of its capture-time skeleton (regardless of the
cursor/cache of the current states, since every `for` loop starts by
re-`iter`-ing its generator), ends in plain exhaustion, and leaves states
that still satisfy the skeleton invariant. -/
theorem prodRunner_closed :
    ∀ (skel states : List IterValueGenerator), skelCompat skel states →
      (∀ g ∈ skel, ∀ v ∈ g.values, v ≠ PyVal.none) →
      (prodRunner skel states).1 = prodRowsSpec skel
        ∧ (prodRunner skel states).2.1 = .stopIteration
        ∧ skelCompat skel ((prodRunner skel states).2.2) := by
  intro skel
  induction skel with
  | nil =>
      intro states hc _
      cases hc
      simp [prodRunner, prodRowsSpec, skelCompat]
  | cons l skelRest ih =>
      intro states hc hnn
      cases hc with
      | cons hrel hrest =>
          rename_i s restSt
          obtain ⟨hnm, hvs, hlim⟩ := hrel
          obtain ⟨snm, svs, sit, sc, slim⟩ := s
          simp at hnm hvs hlim
          subst hlim
          have hti : IterValueGenerator.toIter ⟨snm, svs, sit, sc, .inf⟩
              = ⟨snm, svs, some 0, sc, .inf⟩ := rfl
          have hnn0 : ∀ v ∈ svs.drop 0, v ≠ PyVal.none := by
            rw [← hvs]
            simpa using hnn l (by simp)
          obtain ⟨hitems, hterm⟩ := iterAll_inf snm svs 0 sc hnn0
          have hcfg := IterValueGenerator.iterAll_cfg ⟨snm, svs, some 0, sc, .inf⟩
          obtain ⟨hfn, hfv, hfl⟩ := hcfg
          have hstep : ∀ sts, skelCompat skelRest sts →
              (prodRunner skelRest sts).1 = prodRowsSpec skelRest
                ∧ (prodRunner skelRest sts).2.1 = .stopIteration
                ∧ skelCompat skelRest ((prodRunner skelRest sts).2.2) := by
            intro sts hP
            exact ih sts hP (fun g hg => hnn g (List.mem_cons_of_mem _ hg))
          obtain ⟨pf1, pf2, pf3⟩ := prodFold_closed (prodRunner skelRest)
            (skelCompat skelRest) (prodRowsSpec skelRest) hstep
            (IterValueGenerator.iterAll ⟨snm, svs, some 0, sc, .inf⟩).2.1
            (IterValueGenerator.iterAll ⟨snm, svs, some 0, sc, .inf⟩).2.2
            (IterValueGenerator.iterAll ⟨snm, svs, some 0, sc, .inf⟩).1 restSt hrest
          have hrun : prodRunner (l :: skelRest)
              (IterValueGenerator.mk snm svs sit sc .inf :: restSt)
              = prodFold (prodRunner skelRest)
                  (IterValueGenerator.iterAll ⟨snm, svs, some 0, sc, .inf⟩).2.1
                  (IterValueGenerator.iterAll ⟨snm, svs, some 0, sc, .inf⟩).2.2
                  (IterValueGenerator.iterAll ⟨snm, svs, some 0, sc, .inf⟩).1 restSt := by
            simp only [prodRunner, hti]
          rw [hrun]
          refine ⟨?_, ?_, ?_⟩
          · rw [pf1, hitems]
            simp only [Nat.sub_zero, Nat.zero_add]
            rw [List.flatMap_map]
            simp only [prodRowsSpec, Function.comp]
            rw [hvs, hnm]
          · rw [pf2, hterm]
          · obtain ⟨sts2, hfin, hP2⟩ := pf3
            rw [hfin]
            exact List.Forall₂.cons ⟨by rw [hnm, hfn], by rw [hvs, hfv], hfl rfl⟩ hP2

/-! ### Assembly lemmas for `permRun` on flat permuters -/

/-- Effective number of steps allowed by a limit over a natural count. -/
def Lim.cap : Lim → Nat → Nat
  | .inf, n => n
  | .fin k, n => min k n

/-- `isZero` holds exactly for the literal `fin 0`. -/
theorem Lim.isZero_iff (l : Lim) : l.isZero = true ↔ l = .fin 0 := by
  cases l with
  | inf => simp [Lim.isZero]
  | fin k => cases k <;> simp [Lim.isZero]

/-- `IterValueGenerator.get` succeeds on any non-`None` cache. -/
theorem IterValueGenerator.get_eq_ok {g : IterValueGenerator}
    (h : g.cached ≠ PyVal.none) : g.get = .ok g.cached := by
  unfold IterValueGenerator.get
  rcases hc : g.cached with _ | _ | _ | _
  · exact absurd hc h
  all_goals rfl

/-- `Permuter.get` over leaf children with non-`None` caches: the labeled
pairs in declared order. -/
theorem getList_ivs (root : Gen) (fuel : Nat) (row : List IterValueGenerator)
    (h : ∀ st ∈ row, st.cached ≠ PyVal.none) :
    Gen.getList root (fuel + 1) (row.map .iterv)
      = .ok (row.map (fun st => (st.name, st.cached))) := by
  induction row with
  | nil => simp [Gen.getList]
  | cons st rest ih =>
      have hst := IterValueGenerator.get_eq_ok (h st (by simp))
      have hrest := ih (fun x hx => h x (List.mem_cons_of_mem _ hx))
      simp [Gen.getList, Gen.get, hst, hrest, Gen.name]

/-- `get()` on a flat permuter whose children are leaves with non-`None`
caches: the full labeled tuple. -/
theorem getCurrent_flat (k : PermKind) (n : String) (lim : Lim)
    (row : List IterValueGenerator) (h : ∀ st ∈ row, st.cached ≠ PyVal.none) :
    (Gen.permuter k n (row.map .iterv) lim).getCurrent
      = .ok (.tuple (row.map (fun st => (st.name, st.cached)))) := by
  unfold Gen.getCurrent
  have hs : (Gen.permuter k n (row.map .iterv) lim).size + 1
      = (Gen.sizeList (row.map .iterv) + 1) + 1 := by
    simp [Gen.size]
    omega
  rw [hs]
  simp [Gen.get, getList_ivs _ _ _ h]
  rfl

/-- Closed form of the consumption loop when every snapshot produces a
value: the emitted list is the per-snapshot `get` results truncated by the
limit (the `min(limit, natural)` clamping of `Permuter.__next__`). -/
theorem consume_closed (mk : List IterValueGenerator → Gen) :
    ∀ (snaps : List (List IterValueGenerator)) (lim : Lim) (vals : List PyVal)
      (term : Err) (fins : List IterValueGenerator),
      List.Forall₂ (fun s v => (mk s).getCurrent = .ok v) snaps vals →
      (consume mk lim snaps term fins).1 = vals.take (lim.cap snaps.length) := by
  intro snaps
  induction snaps with
  | nil =>
      intro lim vals term fins hf
      cases hf
      simp [consume]
  | cons s more ih =>
      intro lim vals term fins hf
      cases hf with
      | cons hhead htail =>
          rename_i v vs
          by_cases hz : lim.isZero
          · rw [Lim.isZero_iff] at hz
            subst hz
            simp [consume, Lim.isZero, Lim.cap]
          · have hrec := ih lim.dec vs term fins htail
            cases lim with
            | inf =>
                simp only [Lim.dec, Lim.cap] at hrec
                simp [consume, Lim.isZero, hhead, hrec, Lim.cap, Lim.dec]
            | fin kk =>
                match kk with
                | 0 => simp [Lim.isZero] at hz
                | m + 1 =>
                    simp only [Lim.dec, Lim.cap, Nat.add_sub_cancel] at hrec
                    simp only [consume, Lim.isZero, hhead, hrec, Lim.cap, Lim.dec,
                      Nat.add_sub_cancel]
                    simp [Nat.succ_min_succ]

/-! ### Spec-side descriptions of the two strategies (refinement targets,
written from the wording of the specification, to be compared with the
source-derived semantics) -/

/-- Cartesian product of value lists in nested-loop order, first list
slowest-varying (spec: "standard nested-loop semantics"). -/
def cartesianChoices : List (List PyVal) → List (List PyVal)
  | [] => [[]]
  | vs :: rest => vs.flatMap (fun v => (cartesianChoices rest).map (fun row => v :: row))

/-- The least length among value lists (spec: "the shortest independent
child bounds the sequence"); `0` for an empty family. -/
def minNatural : List (List PyVal) → Nat
  | [] => 0
  | [vs] => vs.length
  | vs :: rest => min vs.length (minNatural rest)

/-- Row `j` of the synchronized walk: the `j`-th value of every list. -/
def zipChoices (vss : List (List PyVal)) (cnt : Nat) : List (List PyVal) :=
  (List.range cnt).map (fun j => vss.map (fun vs => vs.getD j PyVal.none))

/-- Label a choice row with the field names, as `Permuter.get` does. -/
def labelRows (names : List String) (rows : List (List PyVal)) : List PyVal :=
  rows.map (fun row => PyVal.tuple (names.zip row))

/-! ### Bridges between the strategy closed forms and the spec shapes -/

/-- Resetting a list of leaf children. -/
theorem resetChildren_map_iterv (xs : List IterValueGenerator) :
    Gen.resetChildren (xs.map .iterv) = (xs.map IterValueGenerator.toIter).map .iterv := by
  induction xs with
  | nil => simp [Gen.resetChildren]
  | cons x rest ih => simp [Gen.resetChildren, Gen.isDependent, Gen.toIter, ih]

/-- All leaf children are independent. -/
theorem independentLeaves_map_iterv (xs : List IterValueGenerator) :
    independentLeaves (xs.map .iterv) = some xs := by
  induction xs with
  | nil => simp [independentLeaves]
  | cons x rest ih => simp [independentLeaves, ih]

/-- Writing equally many states back into an all-leaf children list
replaces them one for one. -/
theorem writeIndependents_map_iterv (xs sts : List IterValueGenerator)
    (h : sts.length = xs.length) :
    writeIndependents (xs.map .iterv) sts = sts.map .iterv := by
  induction xs generalizing sts with
  | nil =>
      cases sts with
      | nil => simp [writeIndependents]
      | cons s ss => simp at h
  | cons x rest ih =>
      cases sts with
      | nil => simp at h
      | cons s ss =>
          simp at h
          simp [writeIndependents, ih ss h]

/-- `prodRowsSpec` only reads names and values. -/
theorem prodRowsSpec_congr (xs ys : List IterValueGenerator)
    (h : List.Forall₂ (fun a b => a.name = b.name ∧ a.values = b.values) xs ys) :
    prodRowsSpec xs = prodRowsSpec ys := by
  induction h with
  | nil => rfl
  | cons hrel hrest ih =>
      obtain ⟨h1, h2⟩ := hrel
      simp [prodRowsSpec, h1, h2, ih]

/-- Every product row has one state per generator. -/
theorem prodRowsSpec_row_compat (xs : List IterValueGenerator) :
    ∀ row ∈ prodRowsSpec xs,
      List.Forall₂ (fun a b => a.name = b.name ∧ a.values = b.values ∧ b.limit = .inf)
        xs row := by
  induction xs with
  | nil =>
      intro row hrow
      simp [prodRowsSpec] at hrow
      subst hrow
      exact List.Forall₂.nil
  | cons x rest ih =>
      intro row hrow
      simp only [prodRowsSpec, List.mem_flatMap, List.mem_map, List.mem_range] at hrow
      obtain ⟨i, _, tail, htail, rfl⟩ := hrow
      exact List.Forall₂.cons (by simp [passState]) (ih tail htail)

/-- The caches of a product row are in-range values. -/
theorem prodRowsSpec_row_cached (xs : List IterValueGenerator)
    (hnn : ∀ g ∈ xs, ∀ v ∈ g.values, v ≠ PyVal.none) :
    ∀ row ∈ prodRowsSpec xs, ∀ st ∈ row, st.cached ≠ PyVal.none := by
  induction xs with
  | nil =>
      intro row hrow
      simp [prodRowsSpec] at hrow
      subst hrow
      simp
  | cons x rest ih =>
      intro row hrow st hst
      simp only [prodRowsSpec, List.mem_flatMap, List.mem_map, List.mem_range] at hrow
      obtain ⟨i, hi, tail, htail, rfl⟩ := hrow
      rcases List.mem_cons.mp hst with rfl | hst2
      · have : x.values.getD i PyVal.none = x.values[i] := by
          rw [List.getD_eq_getElem?_getD, List.getElem?_eq_getElem hi]
          rfl
        simp only [passState, this]
        exact hnn x (by simp) _ (List.getElem_mem hi)
      · exact ih (fun g hg => hnn g (List.mem_cons_of_mem _ hg)) tail htail st hst2

/-- Reading a list back off its positions. -/
theorem listRange_getD (vs : List PyVal) :
    (List.range vs.length).map (fun i => vs.getD i PyVal.none) = vs := by
  induction vs with
  | nil => simp
  | cons v rest ih =>
      rw [List.length_cons, List.range_succ_eq_map, List.map_cons, List.map_map]
      simp only [List.getD_cons_zero]
      refine congrArg _ ?_
      have : ((fun i => (v :: rest).getD i PyVal.none) ∘ Nat.succ)
          = fun i => rest.getD i PyVal.none := by
        funext i
        simp [Function.comp, List.getD_cons_succ]
      rw [this, ih]

/-- Projecting the product rows onto labeled values gives exactly the
cartesian choices of the value lists, labeled in order. -/
theorem prodRowsSpec_proj (xs : List IterValueGenerator) :
    (prodRowsSpec xs).map (fun row => row.map (fun st => (st.name, st.cached)))
      = (cartesianChoices (xs.map (fun g => g.values))).map
          (fun choice => (xs.map (fun g => g.name)).zip choice) := by
  induction xs with
  | nil => simp [prodRowsSpec, cartesianChoices]
  | cons x rest ih =>
      simp only [prodRowsSpec, cartesianChoices, List.map_cons]
      conv_rhs => rw [← listRange_getD x.values]
      rw [List.map_flatMap, List.flatMap_map, List.map_flatMap]
      apply List.flatMap_congr
      intro i _
      calc ((prodRowsSpec rest).map
              (fun row => passState x.name x.values i :: row)).map
              (fun row => row.map (fun st => (st.name, st.cached)))
          = ((prodRowsSpec rest).map
              (fun row => row.map (fun st => (st.name, st.cached)))).map
              (fun r => (x.name, x.values.getD i PyVal.none) :: r) := by
              simp [List.map_map, Function.comp, passState]
        _ = ((cartesianChoices (rest.map (fun g => g.values))).map
              (fun choice => (rest.map (fun g => g.name)).zip choice)).map
              (fun r => (x.name, x.values.getD i PyVal.none) :: r) := by rw [ih]
        _ = ((cartesianChoices (rest.map (fun g => g.values))).map
              (fun row => x.values.getD i PyVal.none :: row)).map
              (fun choice => (x.name :: rest.map (fun g => g.name)).zip choice) := by
              simp [List.map_map, Function.comp, List.zip_cons_cons]

/-- The least length bounds every member. -/
theorem minNatural_le (vss : List (List PyVal)) :
    ∀ vs ∈ vss, minNatural vss ≤ vs.length := by
  induction vss with
  | nil => simp
  | cons vs rest ih =>
      intro ws hws
      rcases List.mem_cons.mp hws with rfl | hmem
      · cases rest with
        | nil => simp [minNatural]
        | cons r rs => simp [minNatural]
      · cases rest with
        | nil => simp at hmem
        | cons r rs =>
            have := ih ws hmem
            simp only [minNatural]
            omega

/-- The least length is attained by some member of a non-empty family. -/
theorem minNatural_attained (vss : List (List PyVal)) (h : vss ≠ []) :
    ∃ vs ∈ vss, vs.length = minNatural vss := by
  induction vss with
  | nil => exact absurd rfl h
  | cons vs rest ih =>
      cases rest with
      | nil => exact ⟨vs, by simp, by simp [minNatural]⟩
      | cons r rs =>
          obtain ⟨ws, hmem, hlen⟩ := ih (by simp)
          by_cases hle : vs.length ≤ minNatural (r :: rs)
          · refine ⟨vs, by simp, ?_⟩
            simp only [minNatural]
            omega
          · refine ⟨ws, List.mem_cons_of_mem _ hmem, ?_⟩
            simp only [minNatural]
            omega

/-- A list is `Forall₂`-related to its own image. -/
theorem forall₂_map_self {α β : Type _} (r : α → β → Prop) (f : α → β)
    (l : List α) (h : ∀ a ∈ l, r a (f a)) : List.Forall₂ r l (l.map f) := by
  induction l with
  | nil => exact List.Forall₂.nil
  | cons a rest ih =>
      exact List.Forall₂.cons (h a (by simp))
        (ih (fun x hx => h x (List.mem_cons_of_mem _ hx)))

/-- The final states of the consumption loop come from the snapshots or
the trace finals, and an unbounded limit stays unbounded. -/
theorem consume_final (mk : List IterValueGenerator → Gen)
    (Q : List IterValueGenerator → Prop) :
    ∀ (snaps : List (List IterValueGenerator)) (lim : Lim) (term : Err)
      (fins : List IterValueGenerator),
      (∀ s ∈ snaps, Q s) → Q fins →
      Q ((consume mk lim snaps term fins).2.2.1)
        ∧ (lim = .inf → (consume mk lim snaps term fins).2.2.2 = .inf) := by
  intro snaps
  induction snaps with
  | nil =>
      intro lim term fins _ hfin
      exact ⟨hfin, fun h => by simp [consume, h]⟩
  | cons s more ih =>
      intro lim term fins hsnap hfin
      by_cases hz : lim.isZero
      · rw [Lim.isZero_iff] at hz
        subst hz
        exact ⟨by simpa [consume, Lim.isZero] using hsnap s (by simp),
          fun h => by cases h⟩
      · rcases hg : (mk s).getCurrent with e | v
        · refine ⟨by simpa [consume, hz, hg] using hsnap s (by simp), fun h => ?_⟩
          subst h
          simp [consume, hz, hg, Lim.dec]
        · have hrec := ih lim.dec term fins
            (fun x hx => hsnap x (List.mem_cons_of_mem _ hx)) hfin
          refine ⟨by simpa [consume, hz, hg] using hrec.1, fun h => ?_⟩
          subst h
          simpa [consume, hz, hg, Lim.dec] using hrec.2 rfl

/-- `Forall₂` of a reflexive-on-members relation with itself. -/
theorem forall₂_self {α : Type _} (r : α → α → Prop) (l : List α)
    (h : ∀ a ∈ l, r a a) : List.Forall₂ r l l := by
  induction l with
  | nil => exact List.Forall₂.nil
  | cons a rest ih =>
      exact List.Forall₂.cons (h a (by simp))
        (ih (fun x hx => h x (List.mem_cons_of_mem _ hx)))

/-- Composition of two `Forall₂` (pointwise transitivity). -/
theorem forall₂_trans {α β γ : Type _} (p : α → β → Prop) (q : β → γ → Prop)
    (r : α → γ → Prop) (h : ∀ a b c, p a b → q b c → r a c) :
    ∀ {l1 : List α} {l2 : List β} {l3 : List γ},
      List.Forall₂ p l1 l2 → List.Forall₂ q l2 l3 → List.Forall₂ r l1 l3 := by
  intro l1 l2 l3 h12 h23
  induction h12 generalizing l3 with
  | nil => cases h23; exact List.Forall₂.nil
  | cons hab hrest ih =>
      cases h23 with
      | cons hbc hrest2 => exact List.Forall₂.cons (h _ _ _ hab hbc) (ih hrest2)

/-- Full-run behaviour of a flat `Product` permuter over leaf children
with unbounded child limits and `None`-free values: the emitted tuples are
the labeled cartesian choices truncated by the permuter limit, and the
final state is again a flat permuter over configuration-equal leaves. -/
theorem permRun_product (n : String) (leaves : List IterValueGenerator) (lim : Lim)
    (hinf : ∀ g ∈ leaves, g.limit = .inf)
    (hnn : ∀ g ∈ leaves, ∀ v ∈ g.values, v ≠ PyVal.none) :
    ∃ (e : Err) (leaves2 : List IterValueGenerator) (lim2 : Lim),
      permRun (Gen.permuter .product n (leaves.map .iterv) lim)
        = some ((labelRows (leaves.map (fun g => g.name))
              (cartesianChoices (leaves.map (fun g => g.values)))).take
                (lim.cap (cartesianChoices (leaves.map (fun g => g.values))).length),
            e, Gen.permuter .product n (leaves2.map .iterv) lim2)
        ∧ List.Forall₂ (fun a b => a.name = b.name ∧ a.values = b.values ∧ b.limit = .inf)
            leaves leaves2
        ∧ (lim = .inf → lim2 = .inf) := by
  classical
  have hcfg' : List.Forall₂ (fun a b => a.name = b.name ∧ a.values = b.values)
      leaves (leaves.map IterValueGenerator.toIter) :=
    forall₂_map_self _ _ _ (fun g _ => ⟨rfl, rfl⟩)
  have hcompat : skelCompat (leaves.map IterValueGenerator.toIter)
      (leaves.map IterValueGenerator.toIter) := by
    refine forall₂_self _ _ ?_
    intro a ha
    obtain ⟨g, hg, rfl⟩ := List.mem_map.mp ha
    exact ⟨rfl, rfl, hinf g hg⟩
  have hnn' : ∀ g ∈ leaves.map IterValueGenerator.toIter, ∀ v ∈ g.values,
      v ≠ PyVal.none := by
    intro g hg
    obtain ⟨g0, hg0, rfl⟩ := List.mem_map.mp hg
    exact hnn g0 hg0
  obtain ⟨hrows, hterm, hfins⟩ := prodRunner_closed
    (leaves.map IterValueGenerator.toIter) (leaves.map IterValueGenerator.toIter)
    hcompat hnn'
  have hfins' : List.Forall₂
      (fun a b => a.name = b.name ∧ a.values = b.values ∧ b.limit = .inf)
      (leaves.map IterValueGenerator.toIter)
      ((prodRunner (leaves.map IterValueGenerator.toIter)
        (leaves.map IterValueGenerator.toIter)).2.2) := hfins
  have hrowseq : prodRowsSpec (leaves.map IterValueGenerator.toIter)
      = prodRowsSpec leaves := (prodRowsSpec_congr _ _ hcfg').symm
  have hrowcompat := prodRowsSpec_row_compat leaves
  have hrowcached := prodRowsSpec_row_cached leaves hnn
  have hget : ∀ row ∈ prodRowsSpec leaves,
      (Gen.permuter .product n
        (writeIndependents ((leaves.map IterValueGenerator.toIter).map .iterv) row)
          lim).getCurrent
        = .ok (.tuple (row.map (fun st => (st.name, st.cached)))) := by
    intro row hrow
    have hlen : row.length = (leaves.map IterValueGenerator.toIter).length := by
      have := (hrowcompat row hrow).length_eq
      simp [← this]
    rw [writeIndependents_map_iterv _ _ hlen]
    exact getCurrent_flat _ _ _ _ (hrowcached row hrow)
  have hvals : List.Forall₂
      (fun s v => (Gen.permuter .product n
        (writeIndependents ((leaves.map IterValueGenerator.toIter).map .iterv) s)
          lim).getCurrent = .ok v)
      (prodRowsSpec leaves)
      ((prodRowsSpec leaves).map
        (fun row => PyVal.tuple (row.map (fun st => (st.name, st.cached))))) :=
    forall₂_map_self _ _ _ hget
  have hcons := consume_closed
    (fun sts => Gen.permuter .product n
      (writeIndependents ((leaves.map IterValueGenerator.toIter).map .iterv) sts) lim)
    (prodRowsSpec leaves) lim
    ((prodRowsSpec leaves).map
      (fun row => PyVal.tuple (row.map (fun st => (st.name, st.cached)))))
    .stopIteration
    ((prodRunner (leaves.map IterValueGenerator.toIter)
      (leaves.map IterValueGenerator.toIter)).2.2)
    hvals
  have hQ := consume_final
    (fun sts => Gen.permuter .product n
      (writeIndependents ((leaves.map IterValueGenerator.toIter).map .iterv) sts) lim)
    (fun s => List.Forall₂
      (fun a b => a.name = b.name ∧ a.values = b.values ∧ b.limit = .inf) leaves s)
    (prodRowsSpec leaves) lim .stopIteration
    ((prodRunner (leaves.map IterValueGenerator.toIter)
      (leaves.map IterValueGenerator.toIter)).2.2)
    hrowcompat
    (forall₂_trans
      (fun (a b : IterValueGenerator) => a.name = b.name ∧ a.values = b.values)
      (fun (a b : IterValueGenerator) => a.name = b.name ∧ a.values = b.values ∧ b.limit = .inf)
      (fun (a b : IterValueGenerator) => a.name = b.name ∧ a.values = b.values ∧ b.limit = .inf)
      (by
        intro a b c h1 h2
        exact ⟨h1.1.trans h2.1, h1.2.trans h2.2.1, h2.2.2⟩)
      hcfg' hfins')
  set C := consume
      (fun sts => Gen.permuter .product n
        (writeIndependents ((leaves.map IterValueGenerator.toIter).map .iterv) sts) lim)
      lim (prodRowsSpec leaves) .stopIteration
      ((prodRunner (leaves.map IterValueGenerator.toIter)
        (leaves.map IterValueGenerator.toIter)).2.2) with hC
  refine ⟨C.2.1, C.2.2.1, C.2.2.2, ?_, hQ.1, hQ.2⟩
  simp only [permRun, resetChildren_map_iterv, independentLeaves_map_iterv,
    Product.stepGenerator]
  rw [hrows, hterm, hrowseq, hcons]
  have hlen2 : (C.2.2.1).length = (leaves.map IterValueGenerator.toIter).length := by
    have h1 := hQ.1.length_eq
    simp only [List.length_map]
    omega
  rw [writeIndependents_map_iterv _ _ hlen2]
  have hproj := prodRowsSpec_proj leaves
  have hlenrows : (prodRowsSpec leaves).length
      = (cartesianChoices (leaves.map (fun g => g.values))).length := by
    have := congrArg List.length hproj
    simpa using this
  have hlabel : (prodRowsSpec leaves).map
      (fun row => PyVal.tuple (row.map (fun st => (st.name, st.cached))))
      = labelRows (leaves.map (fun g => g.name))
          (cartesianChoices (leaves.map (fun g => g.values))) := by
    have : (prodRowsSpec leaves).map
        (fun row => PyVal.tuple (row.map (fun st => (st.name, st.cached))))
        = ((prodRowsSpec leaves).map
            (fun row => row.map (fun st => (st.name, st.cached)))).map PyVal.tuple := by
      simp [List.map_map, Function.comp]
    rw [this, hproj, labelRows, List.map_map]
    rfl
  rw [hlabel, hlenrows]

/-- `zipStepAll` preserves names, values, and unbounded limits of every
generator (advanced or not). -/
theorem zipStepAll_cfg (sts : List IterValueGenerator) :
    List.Forall₂
      (fun a b => b.name = a.name ∧ b.values = a.values ∧ (a.limit = .inf → b.limit = .inf))
      sts (zipStepAll sts).2 := by
  induction sts with
  | nil => simp [zipStepAll]
  | cons g rest ih =>
      rcases h : g.next with ⟨e?, g1⟩
      have hcfg := IterValueGenerator.next_cfg g
      rw [h] at hcfg
      cases e? with
      | none =>
          have : zipStepAll (g :: rest) = ((zipStepAll rest).1, g1 :: (zipStepAll rest).2) := by
            simp [zipStepAll, h]
          rw [this]
          exact List.Forall₂.cons ⟨hcfg.1, hcfg.2.1, hcfg.2.2⟩ ih
      | some e =>
          have : zipStepAll (g :: rest) = (some e, g1 :: rest) := by
            simp [zipStepAll, h]
          rw [this]
          refine List.Forall₂.cons ⟨hcfg.1, hcfg.2.1, hcfg.2.2⟩ ?_
          exact forall₂_self _ _ (fun a _ => ⟨rfl, rfl, fun hx => hx⟩)

/-- The final states of `Zip.stepGenerator` preserve names, values, and
unbounded limits positionwise. -/
theorem Zip.stepGenerator_fins (l : IterValueGenerator) (rest : List IterValueGenerator) :
    List.Forall₂
      (fun a b => b.name = a.name ∧ b.values = a.values ∧ (a.limit = .inf → b.limit = .inf))
      (l :: rest) ((Zip.stepGenerator l rest).2.2) := by
  generalize hn : l.values.length - (l.iter.getD l.values.length) = n
  induction n generalizing l rest with
  | zero =>
      rcases h : l.next with ⟨e?, l1⟩
      have hcfg := IterValueGenerator.next_cfg l
      rw [h] at hcfg
      cases e? with
      | some e =>
          rw [Zip.stepGenerator_head_fail h]
          exact List.Forall₂.cons ⟨hcfg.1, hcfg.2.1, hcfg.2.2⟩
            (forall₂_self _ _ (fun a _ => ⟨rfl, rfl, fun hx => hx⟩))
      | none =>
          obtain ⟨p, hi, hlt, _, _⟩ := IterValueGenerator.next_ok_iter h
          rw [hi] at hn
          simp at hn
          omega
  | succ n ih =>
      rcases h : l.next with ⟨e?, l1⟩
      have hcfg := IterValueGenerator.next_cfg l
      rw [h] at hcfg
      cases e? with
      | some e =>
          rw [Zip.stepGenerator_head_fail h]
          exact List.Forall₂.cons ⟨hcfg.1, hcfg.2.1, hcfg.2.2⟩
            (forall₂_self _ _ (fun a _ => ⟨rfl, rfl, fun hx => hx⟩))
      | none =>
          have hall := zipStepAll_cfg rest
          rcases h2 : zipStepAll rest with ⟨e2?, rest1⟩
          rw [h2] at hall
          cases e2? with
          | some e2 =>
              rw [Zip.stepGenerator_rest_fail h h2]
              exact List.Forall₂.cons ⟨hcfg.1, hcfg.2.1, hcfg.2.2⟩ hall
          | none =>
              rw [Zip.stepGenerator_ok h h2]
              obtain ⟨p, hi, hlt, hi1, hv1⟩ := IterValueGenerator.next_ok_iter h
              have hrec := ih l1 rest1 (by rw [hv1, hi1]; rw [hi] at hn; simp at hn ⊢; omega)
              refine forall₂_trans
                (fun (a b : IterValueGenerator) => b.name = a.name ∧ b.values = a.values ∧
                  (a.limit = .inf → b.limit = .inf))
                (fun (a b : IterValueGenerator) => b.name = a.name ∧ b.values = a.values ∧
                  (a.limit = .inf → b.limit = .inf))
                (fun (a b : IterValueGenerator) => b.name = a.name ∧ b.values = a.values ∧
                  (a.limit = .inf → b.limit = .inf))
                ?_ ?_ hrec
              · intro a b c h1 h2
                exact ⟨h2.1.trans h1.1, h2.2.1.trans h1.2.1, fun hx => h2.2.2 (h1.2.2 hx)⟩
              · exact List.Forall₂.cons ⟨hcfg.1, hcfg.2.1, hcfg.2.2⟩ hall

/-- Spec-level rows of the synchronized walk: row `j` holds every
generator advanced to its `j`-th value. -/
def zipRowsSpec (xs : List IterValueGenerator) (cnt : Nat) : List (List IterValueGenerator) :=
  (List.range cnt).map (fun j => xs.map (fun g => passState g.name g.values j))

/-- Every zip row is positionwise configuration-compatible. -/
theorem zipRowsSpec_row_compat (xs : List IterValueGenerator) (cnt : Nat) :
    ∀ row ∈ zipRowsSpec xs cnt,
      List.Forall₂ (fun a b => a.name = b.name ∧ a.values = b.values ∧ b.limit = .inf)
        xs row := by
  intro row hrow
  simp only [zipRowsSpec, List.mem_map, List.mem_range] at hrow
  obtain ⟨j, _, rfl⟩ := hrow
  exact forall₂_map_self _ _ _ (fun g _ => by simp [passState])

/-- The caches of a zip row within the least count are in-range values. -/
theorem zipRowsSpec_row_cached (xs : List IterValueGenerator) (cnt : Nat)
    (hcnt : ∀ g ∈ xs, cnt ≤ g.values.length)
    (hnn : ∀ g ∈ xs, ∀ v ∈ g.values, v ≠ PyVal.none) :
    ∀ row ∈ zipRowsSpec xs cnt, ∀ st ∈ row, st.cached ≠ PyVal.none := by
  intro row hrow st hst
  simp only [zipRowsSpec, List.mem_map, List.mem_range] at hrow
  obtain ⟨j, hj, rfl⟩ := hrow
  obtain ⟨g, hg, rfl⟩ := List.mem_map.mp hst
  have hjlt : j < g.values.length := by
    have := hcnt g hg
    omega
  have : g.values.getD j PyVal.none = g.values[j] := by
    rw [List.getD_eq_getElem?_getD, List.getElem?_eq_getElem hjlt]
    rfl
  simp only [passState, this]
  exact hnn g hg _ (List.getElem_mem hjlt)

/-- Projecting the zip rows onto labeled values gives the labeled
synchronized choices. -/
theorem zipRowsSpec_proj (xs : List IterValueGenerator) (cnt : Nat) :
    (zipRowsSpec xs cnt).map (fun row => row.map (fun st => (st.name, st.cached)))
      = (zipChoices (xs.map (fun g => g.values)) cnt).map
          (fun choice => (xs.map (fun g => g.name)).zip choice) := by
  simp only [zipRowsSpec, zipChoices, List.map_map]
  apply List.map_congr_left
  intro j _
  simp only [Function.comp, List.map_map]
  rw [List.zip_map']
  apply List.map_congr_left
  intro g _
  simp [passState]

/-- Full-run behaviour of a flat `Zip` permuter over at least one leaf
child with unbounded child limits and `None`-free values: the emitted
tuples are the labeled synchronized choices, `min(ci)` of them, truncated
by the permuter limit; the final state is again a flat permuter over
configuration-equal leaves. -/
theorem permRun_zip (n : String) (leaves : List IterValueGenerator) (lim : Lim)
    (hne : leaves ≠ [])
    (hinf : ∀ g ∈ leaves, g.limit = .inf)
    (hnn : ∀ g ∈ leaves, ∀ v ∈ g.values, v ≠ PyVal.none) :
    ∃ (e : Err) (leaves2 : List IterValueGenerator) (lim2 : Lim),
      permRun (Gen.permuter .zip n (leaves.map .iterv) lim)
        = some ((labelRows (leaves.map (fun g => g.name))
              (zipChoices (leaves.map (fun g => g.values))
                (minNatural (leaves.map (fun g => g.values))))).take
                (lim.cap (minNatural (leaves.map (fun g => g.values)))),
            e, Gen.permuter .zip n (leaves2.map .iterv) lim2)
        ∧ List.Forall₂ (fun a b => a.name = b.name ∧ a.values = b.values ∧ b.limit = .inf)
            leaves leaves2
        ∧ (lim = .inf → lim2 = .inf) := by
  classical
  cases leaves with
  | nil => exact absurd rfl hne
  | cons ghd gtl =>
  clear hne
  set cnt := minNatural ((ghd :: gtl).map (fun g => g.values)) with hcnt
  have hall : ∀ g ∈ (ghd.toIter :: gtl.map IterValueGenerator.toIter),
      g.iter = some 0 ∧ g.limit = .inf ∧ ∀ v ∈ g.values, v ≠ PyVal.none := by
    intro g hg
    rcases List.mem_cons.mp hg with rfl | hg2
    · exact ⟨rfl, hinf ghd (by simp), hnn ghd (by simp)⟩
    · obtain ⟨g0, hg0, rfl⟩ := List.mem_map.mp hg2
      exact ⟨rfl, hinf g0 (List.mem_cons_of_mem _ hg0), hnn g0 (List.mem_cons_of_mem _ hg0)⟩
  have hlenle : ∀ g ∈ (ghd.toIter :: gtl.map IterValueGenerator.toIter),
      0 + cnt ≤ g.values.length := by
    intro g hg
    have hvmem : g.values ∈ (ghd :: gtl).map (fun g => g.values) := by
      rcases List.mem_cons.mp hg with rfl | hg2
      · exact List.mem_map.mpr ⟨ghd, by simp, rfl⟩
      · obtain ⟨g0, hg0, rfl⟩ := List.mem_map.mp hg2
        exact List.mem_map.mpr ⟨g0, List.mem_cons_of_mem _ hg0, rfl⟩
    have := minNatural_le _ _ hvmem
    omega
  have hattained : ∃ g ∈ (ghd.toIter :: gtl.map IterValueGenerator.toIter),
      g.values.length = 0 + cnt := by
    obtain ⟨vs, hvs, hlen⟩ := minNatural_attained ((ghd :: gtl).map (fun g => g.values))
      (by simp)
    obtain ⟨g0, hg0, rfl⟩ := List.mem_map.mp hvs
    rcases List.mem_cons.mp hg0 with rfl | hg02
    · exact ⟨g0.toIter, by simp, by simpa using hlen⟩
    · exact ⟨g0.toIter, List.mem_cons_of_mem _ (List.mem_map.mpr ⟨g0, hg02, rfl⟩),
        by simpa using hlen⟩
  obtain ⟨hrows, hterm⟩ := zip_closed cnt 0 ghd.toIter (gtl.map IterValueGenerator.toIter)
    hall hlenle hattained
  have hrows2 : (Zip.stepGenerator ghd.toIter (gtl.map IterValueGenerator.toIter)).1
      = zipRowsSpec (ghd :: gtl) cnt := by
    rw [hrows, zipRowsSpec]
    apply List.map_congr_left
    intro j _
    simp [IterValueGenerator.toIter, List.map_map, Function.comp, Nat.zero_add]
  have hrowcompat := zipRowsSpec_row_compat (ghd :: gtl) cnt
  have hrowcached := zipRowsSpec_row_cached (ghd :: gtl) cnt
    (by
      intro g hg
      have hvmem : g.values ∈ (ghd :: gtl).map (fun g => g.values) :=
        List.mem_map.mpr ⟨g, hg, rfl⟩
      exact minNatural_le _ _ hvmem)
    hnn
  have hget : ∀ row ∈ zipRowsSpec (ghd :: gtl) cnt,
      (Gen.permuter .zip n
        (writeIndependents
          (Gen.iterv ghd.toIter :: (gtl.map IterValueGenerator.toIter).map .iterv) row) lim).getCurrent
        = .ok (.tuple (row.map (fun st => (st.name, st.cached)))) := by
    intro row hrow
    have hlen : row.length = (ghd.toIter :: gtl.map IterValueGenerator.toIter).length := by
      have := (hrowcompat row hrow).length_eq
      simp at this ⊢
      omega
    have hsplit : writeIndependents
        (Gen.iterv ghd.toIter :: (gtl.map IterValueGenerator.toIter).map .iterv) row
        = writeIndependents ((ghd.toIter :: gtl.map IterValueGenerator.toIter).map .iterv)
            row := rfl
    rw [hsplit, writeIndependents_map_iterv _ _ hlen]
    exact getCurrent_flat _ _ _ _ (hrowcached row hrow)
  have hvals : List.Forall₂
      (fun s v => (Gen.permuter .zip n
        (writeIndependents
          (Gen.iterv ghd.toIter :: (gtl.map IterValueGenerator.toIter).map .iterv) s) lim).getCurrent
          = .ok v)
      (zipRowsSpec (ghd :: gtl) cnt)
      ((zipRowsSpec (ghd :: gtl) cnt).map
        (fun row => PyVal.tuple (row.map (fun st => (st.name, st.cached))))) :=
    forall₂_map_self _ _ _ hget
  have hcons := consume_closed
    (fun sts => Gen.permuter .zip n
      (writeIndependents
        (Gen.iterv ghd.toIter :: (gtl.map IterValueGenerator.toIter).map .iterv) sts) lim)
    (zipRowsSpec (ghd :: gtl) cnt) lim
    ((zipRowsSpec (ghd :: gtl) cnt).map
      (fun row => PyVal.tuple (row.map (fun st => (st.name, st.cached)))))
    .stopIteration
    ((Zip.stepGenerator ghd.toIter (gtl.map IterValueGenerator.toIter)).2.2)
    hvals
  have hcfg' : List.Forall₂ (fun a b => a.name = b.name ∧ a.values = b.values)
      (ghd :: gtl) (ghd.toIter :: gtl.map IterValueGenerator.toIter) :=
    List.Forall₂.cons ⟨rfl, rfl⟩ (forall₂_map_self _ _ _ (fun g _ => ⟨rfl, rfl⟩))
  have hfins : List.Forall₂
      (fun a b => a.name = b.name ∧ a.values = b.values ∧ b.limit = .inf)
      (ghd :: gtl)
      ((Zip.stepGenerator ghd.toIter (gtl.map IterValueGenerator.toIter)).2.2) := by
    have hmid : List.Forall₂
        (fun a b => a.name = b.name ∧ a.values = b.values ∧ b.limit = .inf)
        (ghd :: gtl) (ghd.toIter :: gtl.map IterValueGenerator.toIter) :=
      List.Forall₂.cons ⟨rfl, rfl, hinf ghd (by simp)⟩
        (forall₂_map_self _ _ _
          (fun g hg => ⟨rfl, rfl, hinf g (List.mem_cons_of_mem _ hg)⟩))
    refine forall₂_trans
      (fun (a b : IterValueGenerator) => a.name = b.name ∧ a.values = b.values ∧ b.limit = .inf)
      (fun (a b : IterValueGenerator) => b.name = a.name ∧ b.values = a.values ∧
        (a.limit = .inf → b.limit = .inf))
      (fun (a b : IterValueGenerator) => a.name = b.name ∧ a.values = b.values ∧ b.limit = .inf)
      ?_ hmid (Zip.stepGenerator_fins ghd.toIter (gtl.map IterValueGenerator.toIter))
    intro a b c h1 h2
    exact ⟨h1.1.trans h2.1.symm, h1.2.1.trans h2.2.1.symm, h2.2.2 h1.2.2⟩
  have hQ := consume_final
    (fun sts => Gen.permuter .zip n
      (writeIndependents
        (Gen.iterv ghd.toIter :: (gtl.map IterValueGenerator.toIter).map .iterv) sts) lim)
    (fun s => List.Forall₂
      (fun a b => a.name = b.name ∧ a.values = b.values ∧ b.limit = .inf) (ghd :: gtl) s)
    (zipRowsSpec (ghd :: gtl) cnt) lim .stopIteration
    ((Zip.stepGenerator ghd.toIter (gtl.map IterValueGenerator.toIter)).2.2)
    hrowcompat hfins
  set C := consume
      (fun sts => Gen.permuter .zip n
        (writeIndependents
          (Gen.iterv ghd.toIter :: (gtl.map IterValueGenerator.toIter).map .iterv) sts) lim)
      lim (zipRowsSpec (ghd :: gtl) cnt) .stopIteration
      ((Zip.stepGenerator ghd.toIter (gtl.map IterValueGenerator.toIter)).2.2) with hC
  refine ⟨C.2.1, C.2.2.1, C.2.2.2, ?_, hQ.1, hQ.2⟩
  simp only [permRun, resetChildren_map_iterv, independentLeaves_map_iterv]
  simp only [List.map_cons]
  rw [hrows2, hterm, hcons]
  have hlen2 : (C.2.2.1).length
      = (Gen.iterv ghd.toIter :: (gtl.map IterValueGenerator.toIter).map .iterv).length := by
    have h1 := hQ.1.length_eq
    simp only [List.length_map, List.length_cons] at h1 ⊢
    omega
  have hwrite : writeIndependents
      (Gen.iterv ghd.toIter :: (gtl.map IterValueGenerator.toIter).map .iterv) (C.2.2.1)
      = (C.2.2.1).map .iterv := by
    have := writeIndependents_map_iterv
      (ghd.toIter :: gtl.map IterValueGenerator.toIter) (C.2.2.1)
      (by simpa using hlen2)
    simpa using this
  rw [hwrite]
  have hlenrows : (zipRowsSpec (ghd :: gtl) cnt).length = cnt := by
    simp [zipRowsSpec]
  have hlabel : (zipRowsSpec (ghd :: gtl) cnt).map
      (fun row => PyVal.tuple (row.map (fun st => (st.name, st.cached))))
      = labelRows ((ghd :: gtl).map (fun g => g.name))
          (zipChoices ((ghd :: gtl).map (fun g => g.values)) cnt) := by
    have hsplit : (zipRowsSpec (ghd :: gtl) cnt).map
        (fun row => PyVal.tuple (row.map (fun st => (st.name, st.cached))))
        = ((zipRowsSpec (ghd :: gtl) cnt).map
            (fun row => row.map (fun st => (st.name, st.cached)))).map PyVal.tuple := by
      simp [List.map_map, Function.comp]
    rw [hsplit, zipRowsSpec_proj, labelRows, List.map_map]
    rfl
  rw [hlabel, hlenrows]
  simp only [List.map_cons, hC]

/-! ### Claim theorems -/

/-- The cartesian choice count is the product of the list lengths. -/
theorem cartesianChoices_length (vss : List (List PyVal)) :
    (cartesianChoices vss).length = (vss.map List.length).prod := by
  induction vss with
  | nil => simp [cartesianChoices]
  | cons vs rest ih =>
      simp only [cartesianChoices, List.length_flatMap, List.map_cons, List.prod_cons]
      have hmc : (List.map
          (List.length ∘ fun v => List.map (fun row => v :: row) (cartesianChoices rest)) vs)
          = List.map (fun _ => (List.map List.length rest).prod) vs := by
        apply List.map_congr_left
        intro v _
        simp [Function.comp, ih]
      rw [hmc, List.map_const', List.sum_replicate, smul_eq_mul]

/-- The synchronized choice count is the requested count. -/
theorem zipChoices_length (vss : List (List PyVal)) (cnt : Nat) :
    (zipChoices vss cnt).length = cnt := by
  simp [zipChoices]

/-- `labelRows` keeps the row count. -/
theorem labelRows_length (names : List String) (rows : List (List PyVal)) :
    (labelRows names rows).length = rows.length := by
  simp [labelRows]

/-- C1.  A `Product` permuter with no explicit limit override over
independent leaf children with value lists `c1, …, cn` emits, on a full
iteration, exactly the labeled cartesian tuples in nested-loop order
(first child slowest, last child fastest): `∏ ci` of them, and exactly one
empty tuple when the child list is empty. -/
theorem claim_C1_product_cardinality (nm : String)
    (fields : List (String × List PyVal))
    (hnn : ∀ f ∈ fields, ∀ v ∈ f.2, v ≠ PyVal.none) :
    ∃ (e : Err) (gfin : Gen),
      permRun (mkPermuter .product nm
          (fields.map (fun f => Gen.iterv (mkIterValueGenerator f.1 f.2))))
        = some (labelRows (fields.map (fun f => f.1))
            (cartesianChoices (fields.map (fun f => f.2))), e, gfin)
      ∧ (labelRows (fields.map (fun f => f.1))
            (cartesianChoices (fields.map (fun f => f.2)))).length
          = (fields.map (fun f => f.2.length)).prod
      ∧ (fields = [] →
          labelRows (fields.map (fun f => f.1))
            (cartesianChoices (fields.map (fun f => f.2))) = [PyVal.tuple []]) := by
  have hshape : mkPermuter .product nm
      (fields.map (fun f => Gen.iterv (mkIterValueGenerator f.1 f.2)))
      = Gen.permuter .product nm
          (((fields.map (fun f => mkIterValueGenerator f.1 f.2)).map
            IterValueGenerator.toIter).map .iterv) .inf := by
    simp only [mkPermuter, Gen.toIter]
    rw [show (List.map (fun f => Gen.iterv (mkIterValueGenerator f.1 f.2)) fields)
        = (fields.map (fun f => mkIterValueGenerator f.1 f.2)).map Gen.iterv from by
      rw [List.map_map]
      rfl]
    rw [resetChildren_map_iterv]
  obtain ⟨e, leaves2, lim2, hrun, _, _⟩ := permRun_product nm
    ((fields.map (fun f => mkIterValueGenerator f.1 f.2)).map IterValueGenerator.toIter)
    .inf
    (by
      intro g hg
      obtain ⟨g0, hg0, rfl⟩ := List.mem_map.mp hg
      obtain ⟨f, hf, rfl⟩ := List.mem_map.mp hg0
      rfl)
    (by
      intro g hg
      obtain ⟨g0, hg0, rfl⟩ := List.mem_map.mp hg
      obtain ⟨f, hf, rfl⟩ := List.mem_map.mp hg0
      exact hnn f hf)
  have hnames : ((fields.map (fun f => mkIterValueGenerator f.1 f.2)).map
      IterValueGenerator.toIter).map (fun g => g.name) = fields.map (fun f => f.1) := by
    simp [List.map_map, Function.comp, mkIterValueGenerator, IterValueGenerator.toIter]
  have hvalues : ((fields.map (fun f => mkIterValueGenerator f.1 f.2)).map
      IterValueGenerator.toIter).map (fun g => g.values) = fields.map (fun f => f.2) := by
    simp [List.map_map, Function.comp, mkIterValueGenerator, IterValueGenerator.toIter]
  rw [hnames, hvalues] at hrun
  have htake : (labelRows (fields.map (fun f => f.1))
      (cartesianChoices (fields.map (fun f => f.2)))).take
        (Lim.inf.cap (cartesianChoices (fields.map (fun f => f.2))).length)
      = labelRows (fields.map (fun f => f.1))
          (cartesianChoices (fields.map (fun f => f.2))) := by
    rw [Lim.cap, ← labelRows_length (fields.map (fun f => f.1))]
    exact List.take_length _
  rw [htake] at hrun
  refine ⟨e, _, by rw [hshape]; exact hrun, ?_, ?_⟩
  · rw [labelRows_length, cartesianChoices_length, List.map_map]
    rfl
  · intro hempty
    subst hempty
    rfl

/-- The two-field example of the spec: `a = [1, 2]`, `b = [1, 2]`. -/
def exFields : List (String × List PyVal) :=
  [("a", [PyVal.int 1, PyVal.int 2]), ("b", [PyVal.int 1, PyVal.int 2])]

/-- Witness for C1: children `a = [1,2]`, `b = [1,2]` give exactly the
four labeled tuples in nested-loop order. -/
theorem claim_C1_product_cardinality_witness :
    (∀ f ∈ exFields, ∀ v ∈ f.2, v ≠ PyVal.none)
    ∧ (∃ (e : Err) (gfin : Gen),
        permRun (mkPermuter .product "p"
            (exFields.map (fun f => Gen.iterv (mkIterValueGenerator f.1 f.2))))
          = some (labelRows (exFields.map (fun f => f.1))
              (cartesianChoices (exFields.map (fun f => f.2))), e, gfin)
        ∧ (labelRows (exFields.map (fun f => f.1))
              (cartesianChoices (exFields.map (fun f => f.2)))).length
            = (exFields.map (fun f => f.2.length)).prod
        ∧ (exFields = [] →
            labelRows (exFields.map (fun f => f.1))
              (cartesianChoices (exFields.map (fun f => f.2))) = [PyVal.tuple []]))
    ∧ labelRows (exFields.map (fun f => f.1))
        (cartesianChoices (exFields.map (fun f => f.2)))
      = [PyVal.tuple [("a", PyVal.int 1), ("b", PyVal.int 1)],
         PyVal.tuple [("a", PyVal.int 1), ("b", PyVal.int 2)],
         PyVal.tuple [("a", PyVal.int 2), ("b", PyVal.int 1)],
         PyVal.tuple [("a", PyVal.int 2), ("b", PyVal.int 2)]] := by
  have hnn : ∀ f ∈ exFields, ∀ v ∈ f.2, v ≠ PyVal.none := by simp [exFields]
  exact ⟨hnn, claim_C1_product_cardinality "p" exFields hnn, rfl⟩

/-- C2.  A `Zip` permuter with no explicit limit override over `n ≥ 1`
independent leaf children with value lists `c1, …, cn` emits, on a full
iteration, exactly `min(ci)` labeled tuples, where the `j`-th tuple
combines the `j`-th value of every child (the shortest child bounds the
sequence, each child advancing once per step in declared order). -/
theorem claim_C2_zip_cardinality (nm : String)
    (fields : List (String × List PyVal)) (hne : fields ≠ [])
    (hnn : ∀ f ∈ fields, ∀ v ∈ f.2, v ≠ PyVal.none) :
    ∃ (e : Err) (gfin : Gen),
      permRun (mkPermuter .zip nm
          (fields.map (fun f => Gen.iterv (mkIterValueGenerator f.1 f.2))))
        = some (labelRows (fields.map (fun f => f.1))
            (zipChoices (fields.map (fun f => f.2))
              (minNatural (fields.map (fun f => f.2)))), e, gfin)
      ∧ (labelRows (fields.map (fun f => f.1))
            (zipChoices (fields.map (fun f => f.2))
              (minNatural (fields.map (fun f => f.2))))).length
          = minNatural (fields.map (fun f => f.2))
      ∧ (∀ j < minNatural (fields.map (fun f => f.2)),
          (labelRows (fields.map (fun f => f.1))
            (zipChoices (fields.map (fun f => f.2))
              (minNatural (fields.map (fun f => f.2)))))[j]?
            = some (PyVal.tuple ((fields.map (fun f => f.1)).zip
                (fields.map (fun f => f.2.getD j PyVal.none))))) := by
  have hshape : mkPermuter .zip nm
      (fields.map (fun f => Gen.iterv (mkIterValueGenerator f.1 f.2)))
      = Gen.permuter .zip nm
          (((fields.map (fun f => mkIterValueGenerator f.1 f.2)).map
            IterValueGenerator.toIter).map .iterv) .inf := by
    simp only [mkPermuter, Gen.toIter]
    rw [show (List.map (fun f => Gen.iterv (mkIterValueGenerator f.1 f.2)) fields)
        = (fields.map (fun f => mkIterValueGenerator f.1 f.2)).map Gen.iterv from by
      rw [List.map_map]
      rfl]
    rw [resetChildren_map_iterv]
  obtain ⟨e, leaves2, lim2, hrun, _, _⟩ := permRun_zip nm
    ((fields.map (fun f => mkIterValueGenerator f.1 f.2)).map IterValueGenerator.toIter)
    .inf
    (by
      intro hcontra
      apply hne
      cases fields with
      | nil => rfl
      | cons f fs => simp at hcontra)
    (by
      intro g hg
      obtain ⟨g0, hg0, rfl⟩ := List.mem_map.mp hg
      obtain ⟨f, hf, rfl⟩ := List.mem_map.mp hg0
      rfl)
    (by
      intro g hg
      obtain ⟨g0, hg0, rfl⟩ := List.mem_map.mp hg
      obtain ⟨f, hf, rfl⟩ := List.mem_map.mp hg0
      exact hnn f hf)
  have hnames : ((fields.map (fun f => mkIterValueGenerator f.1 f.2)).map
      IterValueGenerator.toIter).map (fun g => g.name) = fields.map (fun f => f.1) := by
    simp [List.map_map, Function.comp, mkIterValueGenerator, IterValueGenerator.toIter]
  have hvalues : ((fields.map (fun f => mkIterValueGenerator f.1 f.2)).map
      IterValueGenerator.toIter).map (fun g => g.values) = fields.map (fun f => f.2) := by
    simp [List.map_map, Function.comp, mkIterValueGenerator, IterValueGenerator.toIter]
  rw [hnames, hvalues] at hrun
  have htake : (labelRows (fields.map (fun f => f.1))
      (zipChoices (fields.map (fun f => f.2)) (minNatural (fields.map (fun f => f.2))))).take
        (Lim.inf.cap (minNatural (fields.map (fun f => f.2))))
      = labelRows (fields.map (fun f => f.1))
          (zipChoices (fields.map (fun f => f.2))
            (minNatural (fields.map (fun f => f.2)))) := by
    rw [Lim.cap]
    apply List.take_of_length_le
    rw [labelRows_length, zipChoices_length]
  rw [htake] at hrun
  refine ⟨e, _, by rw [hshape]; exact hrun, by rw [labelRows_length, zipChoices_length], ?_⟩
  intro j hj
  simp [labelRows, zipChoices, List.getElem?_map, List.getElem?_range hj]
  rfl

/-- The zip example of the spec: `a = [1,2,3,4]`, `b = [1,2,3]` (unequal
lengths: the shortest bounds the walk). -/
def exFieldsZip : List (String × List PyVal) :=
  [("a", [PyVal.int 1, PyVal.int 2, PyVal.int 3, PyVal.int 4]),
   ("b", [PyVal.int 1, PyVal.int 2, PyVal.int 3])]

/-- Witness for C2: `a = [1,2,3,4]`, `b = [1,2,3]` yield exactly the three
synchronized tuples `(1,1), (2,2), (3,3)`. -/
theorem claim_C2_zip_cardinality_witness :
    exFieldsZip ≠ []
    ∧ (∀ f ∈ exFieldsZip, ∀ v ∈ f.2, v ≠ PyVal.none)
    ∧ (∃ (e : Err) (gfin : Gen),
        permRun (mkPermuter .zip "p"
            (exFieldsZip.map (fun f => Gen.iterv (mkIterValueGenerator f.1 f.2))))
          = some (labelRows (exFieldsZip.map (fun f => f.1))
              (zipChoices (exFieldsZip.map (fun f => f.2))
                (minNatural (exFieldsZip.map (fun f => f.2)))), e, gfin)
        ∧ (labelRows (exFieldsZip.map (fun f => f.1))
              (zipChoices (exFieldsZip.map (fun f => f.2))
                (minNatural (exFieldsZip.map (fun f => f.2))))).length
            = minNatural (exFieldsZip.map (fun f => f.2))
        ∧ (∀ j < minNatural (exFieldsZip.map (fun f => f.2)),
            (labelRows (exFieldsZip.map (fun f => f.1))
              (zipChoices (exFieldsZip.map (fun f => f.2))
                (minNatural (exFieldsZip.map (fun f => f.2)))))[j]?
              = some (PyVal.tuple ((exFieldsZip.map (fun f => f.1)).zip
                  (exFieldsZip.map (fun f => f.2.getD j PyVal.none))))))
    ∧ labelRows (exFieldsZip.map (fun f => f.1))
        (zipChoices (exFieldsZip.map (fun f => f.2))
          (minNatural (exFieldsZip.map (fun f => f.2))))
      = [PyVal.tuple [("a", PyVal.int 1), ("b", PyVal.int 1)],
         PyVal.tuple [("a", PyVal.int 2), ("b", PyVal.int 2)],
         PyVal.tuple [("a", PyVal.int 3), ("b", PyVal.int 3)]] := by
  have hne : exFieldsZip ≠ [] := by simp [exFieldsZip]
  have hnn : ∀ f ∈ exFieldsZip, ∀ v ∈ f.2, v ≠ PyVal.none := by simp [exFieldsZip]
  exact ⟨hne, hnn, claim_C2_zip_cardinality "p" exFieldsZip hne hnn, rfl⟩

/-- The natural emitted tuple list of either strategy (spec description,
used to state the limit-clamping claim uniformly over both kinds). -/
def naturalTuples (k : PermKind) (fields : List (String × List PyVal)) : List PyVal :=
  match k with
  | .product => labelRows (fields.map (fun f => f.1))
      (cartesianChoices (fields.map (fun f => f.2)))
  | .zip => labelRows (fields.map (fun f => f.1))
      (zipChoices (fields.map (fun f => f.2)) (minNatural (fields.map (fun f => f.2))))

/-- C4.  For either strategy, calling `set_limit(k)` before iteration
makes a full iteration emit exactly `min(k, N)` tuples, where `N` is the
natural step count — the first `min(k, N)` of the natural tuple sequence;
in particular `set_limit(0)` yields zero tuples. -/
theorem claim_C4_limit_clamping (k : PermKind) (nm : String)
    (fields : List (String × List PyVal)) (kk : Nat)
    (hne : k = .zip → fields ≠ [])
    (hnn : ∀ f ∈ fields, ∀ v ∈ f.2, v ≠ PyVal.none) :
    ∃ (e : Err) (gfin : Gen),
      permRun (Gen.setLimit (mkPermuter k nm
          (fields.map (fun f => Gen.iterv (mkIterValueGenerator f.1 f.2))))
          (.fin kk))
        = some ((naturalTuples k fields).take kk, e, gfin)
      ∧ ((naturalTuples k fields).take kk).length
          = min kk (naturalTuples k fields).length := by
  have hshape : Gen.setLimit (mkPermuter k nm
      (fields.map (fun f => Gen.iterv (mkIterValueGenerator f.1 f.2)))) (.fin kk)
      = Gen.permuter k nm
          (((fields.map (fun f => mkIterValueGenerator f.1 f.2)).map
            IterValueGenerator.toIter).map .iterv) (.fin kk) := by
    simp only [mkPermuter, Gen.toIter]
    rw [show (List.map (fun f => Gen.iterv (mkIterValueGenerator f.1 f.2)) fields)
        = (fields.map (fun f => mkIterValueGenerator f.1 f.2)).map Gen.iterv from by
      rw [List.map_map]
      rfl]
    rw [resetChildren_map_iterv]
    rfl
  have hinf : ∀ g ∈ (fields.map (fun f => mkIterValueGenerator f.1 f.2)).map
      IterValueGenerator.toIter, g.limit = .inf := by
    intro g hg
    obtain ⟨g0, hg0, rfl⟩ := List.mem_map.mp hg
    obtain ⟨f, hf, rfl⟩ := List.mem_map.mp hg0
    rfl
  have hnn2 : ∀ g ∈ (fields.map (fun f => mkIterValueGenerator f.1 f.2)).map
      IterValueGenerator.toIter, ∀ v ∈ g.values, v ≠ PyVal.none := by
    intro g hg
    obtain ⟨g0, hg0, rfl⟩ := List.mem_map.mp hg
    obtain ⟨f, hf, rfl⟩ := List.mem_map.mp hg0
    exact hnn f hf
  have hnames : ((fields.map (fun f => mkIterValueGenerator f.1 f.2)).map
      IterValueGenerator.toIter).map (fun g => g.name) = fields.map (fun f => f.1) := by
    simp [List.map_map, Function.comp, mkIterValueGenerator, IterValueGenerator.toIter]
  have hvalues : ((fields.map (fun f => mkIterValueGenerator f.1 f.2)).map
      IterValueGenerator.toIter).map (fun g => g.values) = fields.map (fun f => f.2) := by
    simp [List.map_map, Function.comp, mkIterValueGenerator, IterValueGenerator.toIter]
  cases k with
  | product =>
      obtain ⟨e, leaves2, lim2, hrun, _, _⟩ := permRun_product nm
        ((fields.map (fun f => mkIterValueGenerator f.1 f.2)).map
          IterValueGenerator.toIter) (.fin kk) hinf hnn2
      rw [hnames, hvalues] at hrun
      have htake : (labelRows (fields.map (fun f => f.1))
          (cartesianChoices (fields.map (fun f => f.2)))).take
            ((Lim.fin kk).cap (cartesianChoices (fields.map (fun f => f.2))).length)
          = (naturalTuples .product fields).take kk := by
        rw [Lim.cap, naturalTuples]
        rw [List.take_eq_take]
        rw [labelRows_length]
        omega
      rw [htake] at hrun
      refine ⟨e, _, by rw [hshape]; exact hrun, ?_⟩
      rw [List.length_take]
  | zip =>
      obtain ⟨e, leaves2, lim2, hrun, _, _⟩ := permRun_zip nm
        ((fields.map (fun f => mkIterValueGenerator f.1 f.2)).map
          IterValueGenerator.toIter) (.fin kk)
        (by
          intro hcontra
          apply hne rfl
          cases fields with
          | nil => rfl
          | cons f fs => simp at hcontra)
        hinf hnn2
      rw [hnames, hvalues] at hrun
      have htake : (labelRows (fields.map (fun f => f.1))
          (zipChoices (fields.map (fun f => f.2))
            (minNatural (fields.map (fun f => f.2))))).take
            ((Lim.fin kk).cap (minNatural (fields.map (fun f => f.2))))
          = (naturalTuples .zip fields).take kk := by
        rw [Lim.cap, naturalTuples]
        rw [List.take_eq_take]
        rw [labelRows_length, zipChoices_length]
        omega
      rw [htake] at hrun
      refine ⟨e, _, by rw [hshape]; exact hrun, ?_⟩
      rw [List.length_take]

/-- Witness for C4: `set_limit(3)` on the 2×2 product yields exactly
`min(3, 4) = 3` tuples, and `set_limit(0)` yields zero. -/
theorem claim_C4_limit_clamping_witness :
    (∀ f ∈ exFields, ∀ v ∈ f.2, v ≠ PyVal.none)
    ∧ (∃ (e : Err) (gfin : Gen),
        permRun (Gen.setLimit (mkPermuter .product "p"
            (exFields.map (fun f => Gen.iterv (mkIterValueGenerator f.1 f.2))))
            (.fin 3))
          = some ((naturalTuples .product exFields).take 3, e, gfin)
        ∧ ((naturalTuples .product exFields).take 3).length
            = min 3 (naturalTuples .product exFields).length)
    ∧ (∃ (e : Err) (gfin : Gen),
        permRun (Gen.setLimit (mkPermuter .product "p"
            (exFields.map (fun f => Gen.iterv (mkIterValueGenerator f.1 f.2))))
            (.fin 0))
          = some ((naturalTuples .product exFields).take 0, e, gfin)
        ∧ ((naturalTuples .product exFields).take 0).length
            = min 0 (naturalTuples .product exFields).length)
    ∧ ((naturalTuples .product exFields).take 3).length = 3
    ∧ (naturalTuples .product exFields).take 0 = [] := by
  have hnn : ∀ f ∈ exFields, ∀ v ∈ f.2, v ≠ PyVal.none := by simp [exFields]
  refine ⟨hnn, ?_, ?_, rfl, rfl⟩
  · exact claim_C4_limit_clamping .product "p" exFields 3 (by intro h; cases h) hnn
  · exact claim_C4_limit_clamping .product "p" exFields 0 (by intro h; cases h) hnn

/-! ### Fuel monotonicity and structure of `get` -/

/-- Success of `get`/`getList` is preserved by one more unit of fuel. -/
theorem getBoth_mono (root : Gen) : ∀ fuel : Nat,
    (∀ g v, Gen.get root fuel g = .ok v → Gen.get root (fuel + 1) g = .ok v)
    ∧ (∀ cs prs, Gen.getList root fuel cs = .ok prs
        → Gen.getList root (fuel + 1) cs = .ok prs) := by
  intro fuel
  induction fuel with
  | zero =>
      constructor
      · intro g v h
        simp [Gen.get] at h
      · intro cs prs h
        cases cs with
        | nil => simpa [Gen.getList] using h
        | cons c cs2 => simp [Gen.getList, Gen.get] at h
  | succ fuel ih =>
      have hget : ∀ g v, Gen.get root (fuel + 1) g = .ok v
          → Gen.get root (fuel + 2) g = .ok v := by
        intro g v h
        cases g with
        | iterv l => simpa [Gen.get] using h
        | dependent nm tgt act l =>
            cases hn : nodeAt root tgt with
            | none =>
                simp only [Gen.get, hn] at h
                simp at h
            | some t =>
                simp only [Gen.get, hn] at h ⊢
                cases hg : Gen.get root fuel t with
                | error e =>
                    rw [hg] at h
                    simp [Except.map] at h
                | ok w =>
                    rw [hg] at h
                    rw [ih.1 t w hg]
                    exact h
        | permuter k nm cs l =>
            simp only [Gen.get] at h ⊢
            cases hg : Gen.getList root fuel cs with
            | error e =>
                rw [hg] at h
                simp [Except.map] at h
            | ok prs =>
                rw [hg] at h
                rw [ih.2 cs prs hg]
                exact h
      refine ⟨hget, ?_⟩
      intro cs
      induction cs with
      | nil =>
          intro prs h
          simpa [Gen.getList] using h
      | cons c cs2 ihc =>
          intro prs h
          simp only [Gen.getList] at h ⊢
          cases hg : Gen.get root (fuel + 1) c with
          | error e =>
              rw [hg] at h
              simp at h
          | ok v =>
              rw [hg] at h
              rw [hget c v hg]
              cases hrest : Gen.getList root (fuel + 1) cs2 with
              | error e =>
                  rw [hrest] at h
                  simp at h
              | ok rest =>
                  rw [hrest] at h
                  rw [ihc rest hrest]
                  exact h

/-- Success of `get` is preserved by any larger fuel. -/
theorem get_mono (root : Gen) (f1 f2 : Nat) (h : f1 ≤ f2) (g : Gen) (v : PyVal)
    (hok : Gen.get root f1 g = .ok v) : Gen.get root f2 g = .ok v := by
  induction f2 with
  | zero =>
      have : f1 = 0 := by omega
      subst this
      exact hok
  | succ f2 ih =>
      by_cases he : f1 = f2 + 1
      · subst he
        exact hok
      · exact (getBoth_mono root f2).1 g v (ih (by omega))

/-- `Permuter.get` builds one labeled pair per child, in declared order,
the label being the child's name and the value the child's own `get`. -/
theorem getList_ok_forall₂ (root : Gen) (fuel : Nat) :
    ∀ (cs : List Gen) (prs : List (String × PyVal)),
      Gen.getList root fuel cs = .ok prs →
      List.Forall₂ (fun c pr => pr.1 = c.name ∧ Gen.get root fuel c = .ok pr.2) cs prs := by
  intro cs
  induction cs with
  | nil =>
      intro prs h
      simp only [Gen.getList] at h
      cases h
      exact List.Forall₂.nil
  | cons c cs2 ih =>
      intro prs h
      simp only [Gen.getList] at h
      cases hg : Gen.get root fuel c with
      | error e =>
          rw [hg] at h
          simp at h
      | ok v =>
          rw [hg] at h
          cases hrest : Gen.getList root fuel cs2 with
          | error e =>
              rw [hrest] at h
              simp at h
          | ok rest =>
              rw [hrest] at h
              cases h
              exact List.Forall₂.cons ⟨rfl, hg⟩ (ih rest hrest)

/-- A successful `get` on a permuter node always returns a labeled
tuple. -/
theorem get_permuter_tuple (root : Gen) (fuel : Nat) (k : PermKind) (nm : String)
    (cs : List Gen) (lim : Lim) (v : PyVal)
    (h : Gen.get root fuel (.permuter k nm cs lim) = .ok v) :
    ∃ prs, v = .tuple prs ∧ fuel = (fuel - 1) + 1
      ∧ Gen.getList root (fuel - 1) cs = .ok prs := by
  cases fuel with
  | zero => simp [Gen.get] at h
  | succ f =>
      simp only [Gen.get] at h
      cases hg : Gen.getList root f cs with
      | error e =>
          rw [hg] at h
          simp [Except.map] at h
      | ok prs =>
          rw [hg] at h
          simp [Except.map] at h
          exact ⟨prs, h.symm, by omega, by simpa using hg⟩

/-- Every emitted value of the consumption loop is a successful `get` of
one of the snapshots. -/
theorem consume_mem (mk : List IterValueGenerator → Gen) :
    ∀ (snaps : List (List IterValueGenerator)) (lim : Lim) (term : Err)
      (fins : List IterValueGenerator) (t : PyVal),
      t ∈ (consume mk lim snaps term fins).1 →
      ∃ s ∈ snaps, (mk s).getCurrent = .ok t := by
  intro snaps
  induction snaps with
  | nil =>
      intro lim term fins t ht
      simp [consume] at ht
  | cons s more ih =>
      intro lim term fins t ht
      by_cases hz : lim.isZero
      · simp [consume, hz] at ht
      · cases hg : (mk s).getCurrent with
        | error e =>
            simp [consume, hz, hg] at ht
        | ok v =>
            simp only [consume] at ht
            rw [if_neg hz, hg] at ht
            simp at ht
            rcases ht with rfl | ht2
            · exact ⟨s, by simp, hg⟩
            · obtain ⟨s2, hs2, hok⟩ := ih lim.dec term fins t ht2
              exact ⟨s2, List.mem_cons_of_mem _ hs2, hok⟩

/-- Indexed access through a `Forall₂`. -/
theorem forall₂_getElem? {α β : Type _} {r : α → β → Prop} :
    ∀ {l1 : List α} {l2 : List β}, List.Forall₂ r l1 l2 →
      ∀ (i : Nat) (a : α), l1[i]? = some a → ∃ b, l2[i]? = some b ∧ r a b := by
  intro l1 l2 h
  induction h with
  | nil =>
      intro i a ha
      simp at ha
  | cons hr hrest ih =>
      intro i a ha
      cases i with
      | zero =>
          simp at ha
          subst ha
          exact ⟨_, by simp, hr⟩
      | succ j =>
          simp only [List.getElem?_cons_succ] at ha ⊢
          exact ih j a ha

/-- C9.  Whenever a permuter's current value reads successfully (as it
does after every successful advance, `Permuter.__next__` ending in
`return self.get()`), the result is an ordered sequence of
`(name, value)` pairs with exactly one pair per immediate child, in
declared order, and the pair of a nested-permuter child carries that
child's own current-value result as a nested labeled tuple (itself one
pair per nested child, in order), not flattened into the parent. -/
theorem claim_C9_nested_current_shape (root : Gen) (fuel : Nat) (k : PermKind)
    (nm : String) (cs : List Gen) (lim : Lim) (v : PyVal)
    (h : Gen.get root fuel (.permuter k nm cs lim) = .ok v) :
    ∃ prs, v = .tuple prs
      ∧ List.Forall₂ (fun c pr => pr.1 = Gen.name c
          ∧ Gen.get root (fuel - 1) c = .ok pr.2) cs prs
      ∧ (∀ (i : Nat) (k2 : PermKind) (nm2 : String) (cs2 : List Gen) (lim2 : Lim),
          cs[i]? = some (.permuter k2 nm2 cs2 lim2) →
          ∃ prs2, (prs[i]?).map Prod.snd = some (.tuple prs2)
            ∧ List.Forall₂ (fun c pr => pr.1 = Gen.name c) cs2 prs2) := by
  obtain ⟨prs, rfl, hf, hlist⟩ := get_permuter_tuple root fuel k nm cs lim v h
  have hfe := getList_ok_forall₂ root (fuel - 1) cs prs hlist
  refine ⟨prs, rfl, hfe, ?_⟩
  intro i k2 nm2 cs2 lim2 hi
  obtain ⟨pr, hpr, hname, hget⟩ := forall₂_getElem? hfe i _ hi
  obtain ⟨prs2, hv2, _, hlist2⟩ := get_permuter_tuple root (fuel - 1) k2 nm2 cs2 lim2
    pr.2 hget
  refine ⟨prs2, by simp [hpr, hv2], ?_⟩
  exact (getList_ok_forall₂ root ((fuel - 1) - 1) cs2 prs2 hlist2).imp
    (fun c pr hc => hc.1)

/-- A started leaf with a cached value, for the C9 witness. -/
def exLeafA : IterValueGenerator :=
  { name := "a", values := [PyVal.int 1], iter := some 1, cached := PyVal.int 1,
    limit := .inf }

/-- A started leaf inside the nested permuter, for the C9 witness. -/
def exLeafB : IterValueGenerator :=
  { name := "b", values := [PyVal.int 2], iter := some 1, cached := PyVal.int 2,
    limit := .inf }

/-- The nested two-level permuter of the C9 witness: a product permuter
with one leaf child and one nested zip-permuter child. -/
def exNested : Gen :=
  Gen.permuter .product "msg"
    [Gen.iterv exLeafA, Gen.permuter .zip "sub" [Gen.iterv exLeafB] .inf] .inf

/-- Witness for C9 on a concrete two-level permuter in an advanced state:
the read succeeds with one labeled pair per child in order, the nested
child contributing its own nested tuple. -/
theorem claim_C9_nested_current_shape_witness :
    Gen.get exNested 3 exNested
      = .ok (.tuple [("a", PyVal.int 1), ("sub", PyVal.tuple [("b", PyVal.int 2)])])
    ∧ ∃ prs, PyVal.tuple [("a", PyVal.int 1), ("sub", PyVal.tuple [("b", PyVal.int 2)])]
        = .tuple prs
      ∧ List.Forall₂ (fun c pr => pr.1 = Gen.name c
          ∧ Gen.get exNested (3 - 1) c = .ok pr.2)
          [Gen.iterv exLeafA, Gen.permuter .zip "sub" [Gen.iterv exLeafB] .inf] prs
      ∧ (∀ (i : Nat) (k2 : PermKind) (nm2 : String) (cs2 : List Gen) (lim2 : Lim),
          ([Gen.iterv exLeafA,
            Gen.permuter .zip "sub" [Gen.iterv exLeafB] .inf] : List Gen)[i]?
              = some (.permuter k2 nm2 cs2 lim2) →
          ∃ prs2, (prs[i]?).map Prod.snd = some (.tuple prs2)
            ∧ List.Forall₂ (fun c pr => pr.1 = Gen.name c) cs2 prs2) := by
  have hB : ∀ f : Nat, Gen.get exNested (f + 1) (Gen.iterv exLeafB)
      = .ok (PyVal.int 2) := by
    intro f
    simp [Gen.get, exLeafB, IterValueGenerator.get]
  have hA : ∀ f : Nat, Gen.get exNested (f + 1) (Gen.iterv exLeafA)
      = .ok (PyVal.int 1) := by
    intro f
    simp [Gen.get, exLeafA, IterValueGenerator.get]
  have hsub : ∀ f : Nat, Gen.get exNested (f + 1 + 1)
      (Gen.permuter .zip "sub" [Gen.iterv exLeafB] .inf)
      = .ok (PyVal.tuple [("b", PyVal.int 2)]) := by
    intro f
    simp only [Gen.get, Gen.getList, IterValueGenerator.get, Gen.name, exLeafB,
      Except.map]
  have hroot : Gen.get exNested (0 + 1 + 1 + 1) exNested
      = .ok (.tuple [("a", PyVal.int 1), ("sub", PyVal.tuple [("b", PyVal.int 2)])]) := by
    rw [show exNested = Gen.permuter .product "msg"
      [Gen.iterv exLeafA, Gen.permuter .zip "sub" [Gen.iterv exLeafB] .inf] .inf from rfl]
    simp only [Gen.get, Gen.getList, IterValueGenerator.get, Gen.name, exLeafA,
      exLeafB, Except.map]
  have hroot3 : Gen.get exNested 3 exNested
      = .ok (.tuple [("a", PyVal.int 1), ("sub", PyVal.tuple [("b", PyVal.int 2)])]) := by
    have := hroot
    norm_num at this
    exact this
  exact ⟨hroot3, claim_C9_nested_current_shape exNested 3 .product "msg"
    [Gen.iterv exLeafA, Gen.permuter .zip "sub" [Gen.iterv exLeafB] .inf] .inf _ hroot3⟩

/-! ### C3: dependent-value correctness after `make_dependent` -/

/-- Setting an index to the element it already holds is the identity. -/
theorem set_getElem_self {α : Type _} :
    ∀ (l : List α) (i : Nat) (a : α), l[i]? = some a → l.set i a = l := by
  intro l
  induction l with
  | nil => intro i a h; simp at h
  | cons x rest ih =>
      intro i a h
      cases i with
      | zero =>
          simp at h
          subst h
          simp
      | succ j =>
          simp only [List.getElem?_cons_succ] at h
          simp [ih j a h]

/-- `set` writes the new element at its index. -/
theorem getElem?_set_self {α : Type _} :
    ∀ (l : List α) (i : Nat) (a : α), i < l.length → (l.set i a)[i]? = some a := by
  intro l
  induction l with
  | nil => intro i a h; simp at h
  | cons x rest ih =>
      intro i a h
      cases i with
      | zero => simp
      | succ j => simpa using ih j a (by simpa using h)

/-- `set` leaves other indices unchanged. -/
theorem getElem?_set_ne {α : Type _} :
    ∀ (l : List α) (i j : Nat) (a : α), i ≠ j → (l.set i a)[j]? = l[j]? := by
  intro l
  induction l with
  | nil => intro i j a _; simp
  | cons x rest ih =>
      intro i j a hne
      cases i with
      | zero =>
          cases j with
          | zero => exact absurd rfl hne
          | succ j2 => simp
      | succ i2 =>
          cases j with
          | zero => simp
          | succ j2 => simpa using ih i2 j2 a (fun hc => hne (by rw [hc]))

/-- `findChild` success: the child sits at the returned index and carries
the searched name. -/
theorem findChild_spec :
    ∀ (cs : List Gen) (nm : String) (i : Nat) (c : Gen),
      findChild cs nm = some (i, c) → cs[i]? = some c ∧ c.name = nm := by
  intro cs
  induction cs with
  | nil => intro nm i c h; simp [findChild] at h
  | cons c0 rest ih =>
      intro nm i c h
      simp only [findChild] at h
      by_cases he : c0.name = nm
      · rw [if_pos he] at h
        cases h
        exact ⟨by simp, he⟩
      · rw [if_neg he] at h
        cases hf : findChild rest nm with
        | none => rw [hf] at h; simp at h
        | some p =>
            rcases p with ⟨j, cj⟩
            rw [hf] at h
            simp only [Option.map_some', Option.some.injEq, Prod.mk.injEq] at h
            obtain ⟨h1, h2⟩ := h
            rw [← h1, ← h2]
            have hrec := ih nm j cj hf
            exact ⟨by simpa using hrec.1, hrec.2⟩

/-- A name that occurs among the children is found by `findChild` (the
`next(..., None)` does not come back `None`). -/
theorem findChild_of_mem :
    ∀ (cs : List Gen) (nm : String), nm ∈ cs.map Gen.name →
      ∃ i c, findChild cs nm = some (i, c) := by
  intro cs
  induction cs with
  | nil => intro nm h; simp at h
  | cons c0 rest ih =>
      intro nm h
      by_cases he : c0.name = nm
      · exact ⟨0, c0, by simp [findChild, he]⟩
      · have hmem : nm ∈ rest.map Gen.name := by
          simp only [List.map_cons, List.mem_cons] at h
          rcases h with h | h
          · exact absurd h.symm he
          · exact h
        obtain ⟨i, c, hf⟩ := ih nm hmem
        exact ⟨i + 1, c, by simp [findChild, he, hf]⟩

/-- `_resolve_child` on a single-component path: the index of the child
found by name. -/
theorem resolveChild_single (k : PermKind) (n : String) (cs : List Gen)
    (lim : Lim) (p : String) (i : Nat) (c : Gen)
    (hf : findChild cs p = some (i, c)) :
    resolveChild (Gen.permuter k n cs lim) [p] = .ok [i] := by
  simp [resolveChild, resolveComponents, hf]

/-- `nodeAt` at a one-index address on a permuter. -/
theorem nodeAt_one (k : PermKind) (n : String) (cs : List Gen) (lim : Lim)
    (i : Nat) (c : Gen) (h : cs[i]? = some c) :
    nodeAt (Gen.permuter k n cs lim) [i] = some c := by
  simp [nodeAt, h]

/-- `replaceAt` at a one-index address on a permuter. -/
theorem replaceAt_one (k : PermKind) (n : String) (cs : List Gen) (lim : Lim)
    (i : Nat) (c d : Gen) (h : cs[i]? = some c) :
    replaceAt (Gen.permuter k n cs lim) [i] d = .permuter k n (cs.set i d) lim := by
  simp [replaceAt, h]

/-- The reduction of `make_dependent` on a permuter with at least one
child: resolve both paths, then substitute. -/
theorem makeDependent_cons (k : PermKind) (n : String) (cs : List Gen)
    (lim : Lim) (src tgt : List String) (act : PyVal → PyVal) (hne : cs ≠ []) :
    makeDependent (Gen.permuter k n cs lim) src tgt act
      = match resolveChild (Gen.permuter k n cs lim) src with
        | .error e => .error e
        | .ok srcAddr =>
            match resolveChild (Gen.permuter k n cs lim) tgt with
            | .error e => .error e
            | .ok destAddr =>
                match nodeAt (Gen.permuter k n cs lim) srcAddr with
                | some srcN => .ok ((replaceAt (Gen.permuter k n cs lim) srcAddr
                    (.dependent srcN.name destAddr act .inf)).toIter)
                | Option.none => .error .pathUnresolved := by
  cases cs with
  | nil => exact absurd rfl hne
  | cons c cs2 => rfl

/-- `resetChildren` leaves a dependent entry written by `set` in place. -/
theorem resetChildren_set_dep (nmD : String) (t : List Nat)
    (a : PyVal → PyVal) (l : Lim) :
    ∀ (cs : List Gen) (i : Nat),
      Gen.resetChildren (cs.set i (.dependent nmD t a l))
        = (Gen.resetChildren cs).set i (.dependent nmD t a l) := by
  intro cs
  induction cs with
  | nil => intro i; simp [Gen.resetChildren]
  | cons c rest ih =>
      intro i
      cases i with
      | zero => simp [Gen.resetChildren, Gen.isDependent]
      | succ j => simp [Gen.resetChildren, ih j]

/-- `independentLeaves` after replacing one leaf slot by a dependent:
the remaining leaves, in order. -/
theorem independentLeaves_set_dep (nmD : String) (t : List Nat)
    (a : PyVal → PyVal) (l : Lim) :
    ∀ (xs : List IterValueGenerator) (i : Nat), i < xs.length →
      independentLeaves ((xs.map Gen.iterv).set i (.dependent nmD t a l))
        = some (xs.eraseIdx i) := by
  intro xs
  induction xs with
  | nil => intro i hi; simp at hi
  | cons x rest ih =>
      intro i hi
      cases i with
      | zero =>
          simp only [List.map_cons, List.set_cons_zero, List.eraseIdx_cons_zero]
          simp [independentLeaves, independentLeaves_map_iterv]
      | succ j =>
          simp only [List.map_cons, List.set_cons_succ, List.eraseIdx_cons_succ]
          simp only [independentLeaves]
          rw [ih j (by simpa using hi)]
          rfl

/-- Writing stepped states whose names match the extracted independent
leaves: the children's names are preserved, dependent entries stay in
place, leaf slots stay leaf slots with their names. -/
theorem writeIndependents_facts :
    ∀ (cs : List Gen) (ils sts : List IterValueGenerator),
      independentLeaves cs = some ils →
      List.Forall₂ (fun a b => a.name = b.name) ils sts →
      ((writeIndependents cs sts).map Gen.name = cs.map Gen.name)
      ∧ (∀ (idx : Nat) (nmD : String) (t : List Nat) (a : PyVal → PyVal) (l : Lim),
          cs[idx]? = some (.dependent nmD t a l) →
          (writeIndependents cs sts)[idx]? = some (.dependent nmD t a l))
      ∧ (∀ (idx : Nat) (g0 : IterValueGenerator), cs[idx]? = some (.iterv g0) →
          ∃ st, (writeIndependents cs sts)[idx]? = some (.iterv st)
            ∧ st.name = g0.name) := by
  intro cs
  induction cs with
  | nil =>
      intro ils sts _ _
      refine ⟨by simp [writeIndependents], ?_, ?_⟩
      · intro idx nmD t a l h; simp at h
      · intro idx g0 h; simp at h
  | cons c rest ih =>
      intro ils sts hil hf
      cases c with
      | iterv g =>
          simp only [independentLeaves] at hil
          cases hr : independentLeaves rest with
          | none => rw [hr] at hil; simp at hil
          | some ils2 =>
              rw [hr] at hil
              simp only [Option.map_some'] at hil
              cases hil
              cases hf with
              | cons hname hrest =>
                  rename_i st sts2
                  obtain ⟨w1, w2, w3⟩ := ih ils2 sts2 hr hrest
                  refine ⟨?_, ?_, ?_⟩
                  · simp only [writeIndependents, List.map_cons, w1]
                    congr 1
                    show st.name = g.name
                    exact hname.symm
                  · intro idx nmD t a l h
                    cases idx with
                    | zero => simp at h
                    | succ j =>
                        simp only [List.getElem?_cons_succ] at h
                        simp only [writeIndependents, List.getElem?_cons_succ]
                        exact w2 j nmD t a l h
                  · intro idx g0 h
                    cases idx with
                    | zero =>
                        simp only [List.getElem?_cons_zero, Option.some.injEq] at h
                        cases h
                        exact ⟨st, by simp [writeIndependents], hname.symm⟩
                    | succ j =>
                        simp only [List.getElem?_cons_succ] at h
                        simp only [writeIndependents, List.getElem?_cons_succ]
                        exact w3 j g0 h
      | dependent nmD0 t0 a0 l0 =>
          simp only [independentLeaves] at hil
          obtain ⟨w1, w2, w3⟩ := ih ils sts hil hf
          refine ⟨?_, ?_, ?_⟩
          · simp only [writeIndependents, List.map_cons, w1]
          · intro idx nmD t a l h
            cases idx with
            | zero =>
                simp only [List.getElem?_cons_zero, Option.some.injEq] at h
                cases h
                simp [writeIndependents]
            | succ j =>
                simp only [List.getElem?_cons_succ] at h
                simp only [writeIndependents, List.getElem?_cons_succ]
                exact w2 j nmD t a l h
          · intro idx g0 h
            cases idx with
            | zero => simp at h
            | succ j =>
                simp only [List.getElem?_cons_succ] at h
                simp only [writeIndependents, List.getElem?_cons_succ]
                exact w3 j g0 h
      | permuter kk nn cc ll =>
          simp [independentLeaves] at hil

/-- Every snapshot row of the Zip stepping trace matches the captured
generators positionwise by name. -/
theorem zip_stepGenerator_snaps (l : IterValueGenerator)
    (rest : List IterValueGenerator) :
    ∀ row ∈ (Zip.stepGenerator l rest).1,
      List.Forall₂ (fun a b => a.name = b.name) (l :: rest) row := by
  generalize hn : l.values.length - (l.iter.getD l.values.length) = n
  induction n generalizing l rest with
  | zero =>
      rcases h : l.next with ⟨e?, l1⟩
      cases e? with
      | some e =>
          rw [Zip.stepGenerator_head_fail h]
          intro row hrow
          simp at hrow
      | none =>
          obtain ⟨p, hi, hlt, _, _⟩ := IterValueGenerator.next_ok_iter h
          rw [hi] at hn
          simp at hn
          omega
  | succ n ih =>
      rcases h : l.next with ⟨e?, l1⟩
      have hcfg := IterValueGenerator.next_cfg l
      rw [h] at hcfg
      cases e? with
      | some e =>
          rw [Zip.stepGenerator_head_fail h]
          intro row hrow
          simp at hrow
      | none =>
          have hall := zipStepAll_cfg rest
          rcases h2 : zipStepAll rest with ⟨e2?, rest1⟩
          rw [h2] at hall
          cases e2? with
          | some e2 =>
              rw [Zip.stepGenerator_rest_fail h h2]
              intro row hrow
              simp at hrow
          | none =>
              rw [Zip.stepGenerator_ok h h2]
              intro row hrow
              have hhead : List.Forall₂ (fun (a b : IterValueGenerator) =>
                  a.name = b.name) (l :: rest) (l1 :: rest1) :=
                List.Forall₂.cons hcfg.1.symm
                  (hall.imp (fun a b hc => hc.1.symm))
              simp only [List.mem_cons] at hrow
              rcases hrow with rfl | hrow
              · exact hhead
              · obtain ⟨p, hi, hlt, hi1, hv1⟩ := IterValueGenerator.next_ok_iter h
                refine forall₂_trans
                  (fun (a b : IterValueGenerator) => a.name = b.name)
                  (fun (a b : IterValueGenerator) => a.name = b.name)
                  (fun (a b : IterValueGenerator) => a.name = b.name)
                  (fun a b c h1 h2 => h1.trans h2) hhead
                  (ih l1 rest1
                    (by rw [hv1, hi1]; rw [hi] at hn; simp at hn ⊢; omega) row hrow)

/-- The labels of a successful `getList` are the children's names. -/
theorem forall₂_fst_names (root : Gen) (fuel : Nat) :
    ∀ (cs : List Gen) (prs : List (String × PyVal)),
      List.Forall₂ (fun c pr => pr.1 = c.name ∧ Gen.get root fuel c = .ok pr.2)
        cs prs →
      prs.map Prod.fst = cs.map Gen.name := by
  intro cs prs h
  induction h with
  | nil => rfl
  | cons h1 h2 ih => simp [ih, h1.1]

/-- Under distinct labels, `List.lookup` of the label at an index returns
that index's value. -/
theorem lookup_of_getElem {β : Type _} :
    ∀ (prs : List (String × β)) (i : Nat) (nm : String) (v : β),
      (prs.map Prod.fst).Nodup → prs[i]? = some (nm, v) →
      prs.lookup nm = some v := by
  intro prs
  induction prs with
  | nil => intro i nm v _ h; simp at h
  | cons p rest ih =>
      intro i nm v hnd h
      rcases p with ⟨kk, b⟩
      simp only [List.map_cons, List.nodup_cons] at hnd
      cases i with
      | zero =>
          simp only [List.getElem?_cons_zero, Option.some.injEq] at h
          cases h
          simp [List.lookup]
      | succ j =>
          simp only [List.getElem?_cons_succ] at h
          have hmem : nm ∈ rest.map Prod.fst := by
            have hin : (nm, v) ∈ rest := by
              have := List.getElem?_eq_some.mp h
              obtain ⟨hlt, hget⟩ := this
              rw [← hget]
              exact List.getElem_mem hlt
            exact List.mem_map.mpr ⟨(nm, v), hin, rfl⟩
          have hkk : kk ≠ nm := fun he => hnd.1 (he ▸ hmem)
          have hbeq : (nm == kk) = false := by
            rw [beq_eq_false_iff_ne]
            exact fun he => hkk he.symm
          simp only [List.lookup, hbeq]
          exact ih j nm v hnd.2 h

/-- Reading the current value of a flat permuter snapshot carrying a
dependent child at slot `i` wired to the leaf at slot `j`: the labeled
pair at `i` carries the transform of the value carried at `j`, computed
from the same (un-advanced) target leaf. -/
theorem dep_snapshot_get (k : PermKind) (n : String) (cs : List Gen)
    (lim : Lim) (i j : Nat) (nmS : String) (act : PyVal → PyVal) (dl : Lim)
    (tl : IterValueGenerator) (v : PyVal)
    (hi : cs[i]? = some (.dependent nmS [j] act dl))
    (hj : cs[j]? = some (.iterv tl))
    (h : (Gen.permuter k n cs lim).getCurrent = .ok v) :
    ∃ prs tv, v = .tuple prs
      ∧ prs.map Prod.fst = cs.map Gen.name
      ∧ prs[i]? = some (nmS, act tv)
      ∧ prs[j]? = some (tl.name, tv)
      ∧ tl.get = .ok tv := by
  simp only [Gen.getCurrent] at h
  obtain ⟨prs, rfl, -, hlist⟩ := get_permuter_tuple _ _ k n cs lim v h
  generalize hgen : (Gen.permuter k n cs lim).size + 1 - 1 = f at hlist
  have hF := getList_ok_forall₂ (Gen.permuter k n cs lim) f cs prs hlist
  have hfst := forall₂_fst_names (Gen.permuter k n cs lim) f cs prs hF
  obtain ⟨pri, hpi, hni, hgi⟩ := forall₂_getElem? hF i _ hi
  obtain ⟨prj, hpj, hnj, hgj⟩ := forall₂_getElem? hF j _ hj
  cases f with
  | zero => simp [Gen.get] at hgj
  | succ f1 =>
      simp only [Gen.get] at hgj
      simp only [Gen.get, nodeAt_one k n cs lim j (.iterv tl) hj] at hgi
      cases f1 with
      | zero => simp [Gen.get, Except.map] at hgi
      | succ f2 =>
          simp only [Gen.get] at hgi
          cases htl : tl.get with
          | error e =>
              rw [htl] at hgj
              simp at hgj
          | ok tv =>
              rw [htl] at hgi hgj
              simp only [Except.map, Except.ok.injEq] at hgi hgj
              refine ⟨prs, tv, rfl, hfst, ?_, ?_, rfl⟩
              · rw [hpi, show pri = (nmS, act tv) from Prod.ext hni hgi.symm]
              · rw [hpj, show prj = (tl.name, tv) from Prod.ext hnj hgj.symm]

/-- Every value emitted by the consumption loop over name-compatible
snapshots of a children list holding a dependent at `isrc` wired to the
leaf at `jtgt` satisfies the dependency relation under the two labels. -/
theorem emitted_dep_lookup (k : PermKind) (n : String) (csM : List Gen)
    (lim : Lim) (ils : List IterValueGenerator) (isrc jtgt : Nat)
    (srcN tgtN : String) (act : PyVal → PyVal)
    (snaps : List (List IterValueGenerator)) (term : Err)
    (fins : List IterValueGenerator)
    (hils : independentLeaves csM = some ils)
    (hcomp : ∀ row ∈ snaps,
      List.Forall₂ (fun (a b : IterValueGenerator) => a.name = b.name) ils row)
    (hdep : csM[isrc]? = some (.dependent srcN [jtgt] act .inf))
    (hleaf : ∃ tl0, csM[jtgt]? = some (.iterv tl0) ∧ tl0.name = tgtN)
    (hnames : (csM.map Gen.name).Nodup) (v : PyVal)
    (hv : v ∈ (consume (fun sts => Gen.permuter k n (writeIndependents csM sts) lim)
        lim snaps term fins).1) :
    ∃ prs sv tv, v = .tuple prs ∧ prs.lookup srcN = some sv
      ∧ prs.lookup tgtN = some tv ∧ sv = act tv := by
  obtain ⟨s, hsnap, hgetok⟩ := consume_mem _ snaps lim term fins v hv
  obtain ⟨w1, w2, w3⟩ := writeIndependents_facts csM ils s hils (hcomp s hsnap)
  obtain ⟨tl0, hj0, htl0⟩ := hleaf
  obtain ⟨st, hj1, hstname⟩ := w3 jtgt tl0 hj0
  have hdep1 := w2 isrc srcN [jtgt] act .inf hdep
  obtain ⟨prs, tv, rfl, hfst, hpi, hpj, -⟩ := dep_snapshot_get k n
    (writeIndependents csM s) lim isrc jtgt srcN act .inf st v hdep1 hj1 hgetok
  have hndp : (prs.map Prod.fst).Nodup := by
    rw [hfst, w1]
    exact hnames
  rw [hstname, htl0] at hpj
  exact ⟨prs, act tv, tv, rfl, lookup_of_getElem prs isrc srcN (act tv) hndp hpi,
    lookup_of_getElem prs jtgt tgtN tv hndp hpj, rfl⟩

/-- Removing the element at an in-range index shortens a list by one. -/
theorem length_eraseIdx_lt {α : Type _} :
    ∀ (l : List α) (i : Nat), i < l.length → (l.eraseIdx i).length = l.length - 1 := by
  intro l
  induction l with
  | nil => intro i hi; simp at hi
  | cons x rest ih =>
      intro i hi
      cases i with
      | zero => simp
      | succ j =>
          simp only [List.eraseIdx_cons_succ, List.length_cons]
          rw [ih j (by simpa using hi)]
          have : 0 < rest.length := by
            simp at hi
            omega
          omega

/-- C3.  After `make_dependent(source, target, transform)` wires a
dependency between two distinct existing children of a flat permuter
whose children carry distinct names, every tuple a full iteration emits
carries, under the source's label, exactly the transform applied to the
value carried under the target's label in the same tuple; moreover
reading any dependent stream's value is the pure computation
`action(target.get())` on the resolved target — it never advances the
target. -/
theorem claim_C3_dependent_correctness (k : PermKind) (n : String)
    (leaves : List IterValueGenerator) (lim : Lim) (src tgt : String)
    (act : PyVal → PyVal) (root2 : Gen)
    (hnd : (leaves.map (fun g => g.name)).Nodup)
    (hne : src ≠ tgt)
    (hs : src ∈ leaves.map (fun g => g.name))
    (ht : tgt ∈ leaves.map (fun g => g.name))
    (hinf : ∀ g ∈ leaves, g.limit = .inf)
    (hnn : ∀ g ∈ leaves, ∀ v ∈ g.values, v ≠ PyVal.none)
    (hmk : makeDependent (Gen.permuter k n (leaves.map Gen.iterv) lim)
        [src] [tgt] act = .ok root2) :
    (∃ out e gf, permRun root2 = some (out, e, gf)
      ∧ ∀ v ∈ out, ∃ prs sv tv, v = .tuple prs
          ∧ prs.lookup src = some sv ∧ prs.lookup tgt = some tv ∧ sv = act tv)
    ∧ (∀ (rt tnode : Gen) (f : Nat) (nmD : String) (a : List Nat) (dl : Lim),
        nodeAt rt a = some tnode →
        Gen.get rt (f + 1) (.dependent nmD a act dl)
          = (Gen.get rt f tnode).map act) := by
  refine ⟨?_, fun rt tnode f nmD a dl hnode => by simp [Gen.get, hnode]⟩
  obtain ⟨isrc, csrc, hfs⟩ := findChild_of_mem (leaves.map Gen.iterv) src
    (by rw [List.map_map]; exact hs)
  obtain ⟨hcs_s0, hname_s⟩ := findChild_spec (leaves.map Gen.iterv) src isrc csrc hfs
  obtain ⟨jtgt, ctgt, hft⟩ := findChild_of_mem (leaves.map Gen.iterv) tgt
    (by rw [List.map_map]; exact ht)
  obtain ⟨hcs_t0, hname_t⟩ := findChild_spec (leaves.map Gen.iterv) tgt jtgt ctgt hft
  have hsrc_ex : ∃ lsrc, leaves[isrc]? = some lsrc ∧ csrc = Gen.iterv lsrc := by
    rw [List.getElem?_map] at hcs_s0
    cases hx : leaves[isrc]? with
    | none => rw [hx] at hcs_s0; simp at hcs_s0
    | some l0 =>
        rw [hx] at hcs_s0
        simp only [Option.map_some', Option.some.injEq] at hcs_s0
        exact ⟨l0, rfl, hcs_s0.symm⟩
  obtain ⟨lsrc, hl_s, rfl⟩ := hsrc_ex
  have htgt_ex : ∃ ltgt, leaves[jtgt]? = some ltgt ∧ ctgt = Gen.iterv ltgt := by
    rw [List.getElem?_map] at hcs_t0
    cases hx : leaves[jtgt]? with
    | none => rw [hx] at hcs_t0; simp at hcs_t0
    | some l0 =>
        rw [hx] at hcs_t0
        simp only [Option.map_some', Option.some.injEq] at hcs_t0
        exact ⟨l0, rfl, hcs_t0.symm⟩
  obtain ⟨ltgt, hl_t, rfl⟩ := htgt_ex
  have hsrc_name : lsrc.name = src := hname_s
  have htgt_name : ltgt.name = tgt := hname_t
  have hisrc_lt : isrc < leaves.length := (List.getElem?_eq_some.mp hl_s).1
  have hjtgt_lt : jtgt < leaves.length := (List.getElem?_eq_some.mp hl_t).1
  have hij : isrc ≠ jtgt := by
    intro hcontra
    apply hne
    rw [← hsrc_name, ← htgt_name]
    have hll : some lsrc = some ltgt := by rw [← hl_s, ← hl_t, hcontra]
    cases hll
    rfl
  have hne_cs : (leaves.map Gen.iterv) ≠ [] := by
    intro hc
    have hlen : (leaves.map Gen.iterv).length = 0 := by rw [hc]; rfl
    rw [List.length_map] at hlen
    omega
  have hcs_s2 : (leaves.map Gen.iterv)[isrc]? = some (Gen.iterv lsrc) := by
    rw [List.getElem?_map, hl_s]
    rfl
  have hres_s := resolveChild_single k n (leaves.map Gen.iterv) lim src isrc
    (Gen.iterv lsrc) hfs
  have hres_t := resolveChild_single k n (leaves.map Gen.iterv) lim tgt jtgt
    (Gen.iterv ltgt) hft
  simp only [makeDependent_cons k n (leaves.map Gen.iterv) lim [src] [tgt] act hne_cs,
    hres_s, hres_t,
    nodeAt_one k n (leaves.map Gen.iterv) lim isrc (Gen.iterv lsrc) hcs_s2,
    Gen.name,
    replaceAt_one k n (leaves.map Gen.iterv) lim isrc (Gen.iterv lsrc)
      (Gen.dependent lsrc.name [jtgt] act .inf) hcs_s2,
    Gen.toIter, resetChildren_set_dep, resetChildren_map_iterv,
    Except.ok.injEq] at hmk
  subst hmk
  have htoIter2 : (leaves.map IterValueGenerator.toIter).map IterValueGenerator.toIter
      = leaves.map IterValueGenerator.toIter := by
    rw [List.map_map]
    exact List.map_congr_left (fun g _ => rfl)
  have hreset : Gen.resetChildren (((leaves.map IterValueGenerator.toIter).map Gen.iterv).set isrc
        (Gen.dependent lsrc.name [jtgt] act .inf))
      = (((leaves.map IterValueGenerator.toIter).map Gen.iterv).set isrc
        (Gen.dependent lsrc.name [jtgt] act .inf)) := by
    rw [resetChildren_set_dep, resetChildren_map_iterv, htoIter2]
  have hisrc_lt2 : isrc < (leaves.map IterValueGenerator.toIter).length := by
    simpa using hisrc_lt
  have hils : independentLeaves (((leaves.map IterValueGenerator.toIter).map Gen.iterv).set isrc
        (Gen.dependent lsrc.name [jtgt] act .inf))
      = some ((leaves.map IterValueGenerator.toIter).eraseIdx isrc) :=
    independentLeaves_set_dep lsrc.name [jtgt] act .inf
      (leaves.map IterValueGenerator.toIter) isrc hisrc_lt2
  have hdepidx : (((leaves.map IterValueGenerator.toIter).map Gen.iterv).set isrc
        (Gen.dependent lsrc.name [jtgt] act .inf))[isrc]?
      = some (Gen.dependent lsrc.name [jtgt] act .inf) :=
    getElem?_set_self _ isrc _ (by simpa using hisrc_lt)
  have hleafidx : (((leaves.map IterValueGenerator.toIter).map Gen.iterv).set isrc
        (Gen.dependent lsrc.name [jtgt] act .inf))[jtgt]?
      = some (Gen.iterv ltgt.toIter) := by
    rw [getElem?_set_ne _ isrc jtgt _ hij]
    simp [List.getElem?_map, hl_t]
  have hnames_mix : ((((leaves.map IterValueGenerator.toIter).map Gen.iterv).set isrc
        (Gen.dependent lsrc.name [jtgt] act .inf)).map Gen.name).Nodup := by
    have h1 : (((leaves.map IterValueGenerator.toIter).map Gen.iterv).set isrc
        (Gen.dependent lsrc.name [jtgt] act .inf)).map Gen.name
        = (leaves.map (fun g => g.name)).set isrc lsrc.name := by
      rw [List.map_set]
      congr 1
      rw [List.map_map, List.map_map]
      exact List.map_congr_left (fun g _ => rfl)
    have h2 : (leaves.map (fun g => g.name)).set isrc lsrc.name
        = leaves.map (fun g => g.name) := by
      apply set_getElem_self
      rw [List.getElem?_map, hl_s]
      rfl
    rw [h1, h2]
    exact hnd
  have hmem_ils : ∀ g ∈ ((leaves.map IterValueGenerator.toIter).eraseIdx isrc),
      ∃ g0 ∈ leaves, g = g0.toIter := by
    intro g hg
    have hg2 : g ∈ leaves.map IterValueGenerator.toIter :=
      List.Sublist.mem hg (List.eraseIdx_sublist _ _)
    obtain ⟨g0, hg0, hEq⟩ := List.mem_map.mp hg2
    exact ⟨g0, hg0, hEq.symm⟩
  cases k with
  | product =>
      have hinf_ils : ∀ g ∈ ((leaves.map IterValueGenerator.toIter).eraseIdx isrc), g.limit = .inf := by
        intro g hg
        obtain ⟨g0, hg0, rfl⟩ := hmem_ils g hg
        simpa [IterValueGenerator.toIter] using hinf g0 hg0
      have hnn_ils : ∀ g ∈ ((leaves.map IterValueGenerator.toIter).eraseIdx isrc),
          ∀ v ∈ g.values, v ≠ PyVal.none := by
        intro g hg
        obtain ⟨g0, hg0, rfl⟩ := hmem_ils g hg
        simpa [IterValueGenerator.toIter] using hnn g0 hg0
      have hclosed := prodRunner_closed ((leaves.map IterValueGenerator.toIter).eraseIdx isrc) ((leaves.map IterValueGenerator.toIter).eraseIdx isrc)
        (forall₂_self _ _ (fun g hg => ⟨rfl, rfl, hinf_ils g hg⟩)) hnn_ils
      have hcomp : ∀ row ∈ (Product.stepGenerator ((leaves.map IterValueGenerator.toIter).eraseIdx isrc)).1,
          List.Forall₂ (fun (a b : IterValueGenerator) => a.name = b.name)
            ((leaves.map IterValueGenerator.toIter).eraseIdx isrc) row := by
        intro row hrow
        have hrow2 : row ∈ prodRowsSpec ((leaves.map IterValueGenerator.toIter).eraseIdx isrc) := by
          rw [← hclosed.1]
          exact hrow
        exact (prodRowsSpec_row_compat _ row hrow2).imp (fun a b hc => hc.1)
      rcases hC : consume (fun sts => Gen.permuter PermKind.product n
            (writeIndependents (((leaves.map IterValueGenerator.toIter).map Gen.iterv).set isrc
        (Gen.dependent lsrc.name [jtgt] act .inf)) sts) lim) lim
          (Product.stepGenerator ((leaves.map IterValueGenerator.toIter).eraseIdx isrc)).1
          (Product.stepGenerator ((leaves.map IterValueGenerator.toIter).eraseIdx isrc)).2.1
          (Product.stepGenerator ((leaves.map IterValueGenerator.toIter).eraseIdx isrc)).2.2
        with ⟨out, e2, fins2, lim2⟩
      refine ⟨out, e2, Gen.permuter PermKind.product n
        (writeIndependents (((leaves.map IterValueGenerator.toIter).map Gen.iterv).set isrc
        (Gen.dependent lsrc.name [jtgt] act .inf)) fins2) lim2, ?_, ?_⟩
      · simp only [permRun, hreset, hils, hC]
      · intro v hv
        have hv2 : v ∈ (consume (fun sts => Gen.permuter PermKind.product n
              (writeIndependents (((leaves.map IterValueGenerator.toIter).map Gen.iterv).set isrc
        (Gen.dependent lsrc.name [jtgt] act .inf)) sts) lim) lim
            (Product.stepGenerator ((leaves.map IterValueGenerator.toIter).eraseIdx isrc)).1
            (Product.stepGenerator ((leaves.map IterValueGenerator.toIter).eraseIdx isrc)).2.1
            (Product.stepGenerator ((leaves.map IterValueGenerator.toIter).eraseIdx isrc)).2.2).1 := by
          rw [hC]
          exact hv
        obtain ⟨prs, sv, tv, hvt, hls, hlt2, hsv⟩ := emitted_dep_lookup
          PermKind.product n (((leaves.map IterValueGenerator.toIter).map Gen.iterv).set isrc
        (Gen.dependent lsrc.name [jtgt] act .inf)) lim
          ((leaves.map IterValueGenerator.toIter).eraseIdx isrc) isrc jtgt
          lsrc.name tgt act _ _ _ hils hcomp hdepidx
          ⟨ltgt.toIter, hleafidx, htgt_name⟩ hnames_mix v hv2
        rw [hsrc_name] at hls
        exact ⟨prs, sv, tv, hvt, hls, hlt2, hsv⟩
  | zip =>
      have hne_ils : ((leaves.map IterValueGenerator.toIter).eraseIdx isrc) ≠ [] := by
        intro hcontra
        have hlen3 := congrArg List.length hcontra
        rw [length_eraseIdx_lt (leaves.map IterValueGenerator.toIter) isrc hisrc_lt2]
          at hlen3
        simp at hlen3
        omega
      rcases hils_cons : ((leaves.map IterValueGenerator.toIter).eraseIdx isrc)
        with _ | ⟨i0, is⟩
      · exact absurd hils_cons hne_ils
      · rw [hils_cons] at hils
        have hcomp : ∀ row ∈ (Zip.stepGenerator i0 is).1,
            List.Forall₂ (fun (a b : IterValueGenerator) => a.name = b.name)
              (i0 :: is) row :=
          zip_stepGenerator_snaps i0 is
        rcases hC : consume (fun sts => Gen.permuter PermKind.zip n
              (writeIndependents (((leaves.map IterValueGenerator.toIter).map Gen.iterv).set isrc
        (Gen.dependent lsrc.name [jtgt] act .inf)) sts) lim) lim
            (Zip.stepGenerator i0 is).1 (Zip.stepGenerator i0 is).2.1
            (Zip.stepGenerator i0 is).2.2
          with ⟨out, e2, fins2, lim2⟩
        refine ⟨out, e2, Gen.permuter PermKind.zip n
          (writeIndependents (((leaves.map IterValueGenerator.toIter).map Gen.iterv).set isrc
        (Gen.dependent lsrc.name [jtgt] act .inf)) fins2) lim2, ?_, ?_⟩
        · simp only [permRun, hreset, hils, hC]
        · intro v hv
          have hv2 : v ∈ (consume (fun sts => Gen.permuter PermKind.zip n
                (writeIndependents (((leaves.map IterValueGenerator.toIter).map Gen.iterv).set isrc
        (Gen.dependent lsrc.name [jtgt] act .inf)) sts) lim) lim
              (Zip.stepGenerator i0 is).1 (Zip.stepGenerator i0 is).2.1
              (Zip.stepGenerator i0 is).2.2).1 := by
            rw [hC]
            exact hv
          obtain ⟨prs, sv, tv, hvt, hls, hlt2, hsv⟩ := emitted_dep_lookup
            PermKind.zip n (((leaves.map IterValueGenerator.toIter).map Gen.iterv).set isrc
        (Gen.dependent lsrc.name [jtgt] act .inf)) lim
            (i0 :: is) isrc jtgt
            lsrc.name tgt act _ _ _ hils hcomp hdepidx
            ⟨ltgt.toIter, hleafidx, htgt_name⟩ hnames_mix v hv2
          rw [hsrc_name] at hls
          exact ⟨prs, sv, tv, hvt, hls, hlt2, hsv⟩

/-- Two leaf fields for the C3 witness: `a = [1, 2]`, `b = [10, 20]`. -/
def exDepLeaves : List IterValueGenerator :=
  [mkIterValueGenerator "a" [PyVal.int 1, PyVal.int 2],
   mkIterValueGenerator "b" [PyVal.int 10, PyVal.int 20]]

/-- The transform of the C3 witness dependency. -/
def exAct : PyVal → PyVal := fun v => PyVal.tuple [("k", v)]

/-- The permuter of the C3 witness after
`make_dependent("b", "a", exAct)`: the leaf `b` replaced in place by a
dependent generator targeting `a`. -/
def exWired : Gen :=
  Gen.permuter .zip "p"
    [Gen.iterv ((mkIterValueGenerator "a" [PyVal.int 1, PyVal.int 2]).toIter),
     Gen.dependent "b" [0] exAct .inf] .inf

/-- Concrete run of the C3 theorem: wiring `b` to depend on `a` makes
every emitted tuple carry `exAct` of its `a` value under the `b` label. -/
theorem claim_C3_dependent_correctness_witness :
    (makeDependent (Gen.permuter .zip "p" (exDepLeaves.map Gen.iterv) .inf)
        ["b"] ["a"] exAct = .ok exWired)
    ∧ (exDepLeaves.map (fun g => g.name)).Nodup
    ∧ ((∃ out e gf, permRun exWired = some (out, e, gf)
        ∧ ∀ v ∈ out, ∃ prs sv tv, v = .tuple prs
            ∧ prs.lookup "b" = some sv ∧ prs.lookup "a" = some tv ∧ sv = exAct tv)
      ∧ (∀ (rt tnode : Gen) (f : Nat) (nmD : String) (a : List Nat) (dl : Lim),
          nodeAt rt a = some tnode →
          Gen.get rt (f + 1) (.dependent nmD a exAct dl)
            = (Gen.get rt f tnode).map exAct)) := by
  have hmk : makeDependent (Gen.permuter .zip "p" (exDepLeaves.map Gen.iterv) .inf)
      ["b"] ["a"] exAct = .ok exWired := by
    simp [makeDependent, exDepLeaves, mkIterValueGenerator, resolveChild,
      resolveComponents, findChild, Gen.name, nodeAt, replaceAt, Gen.toIter,
      Gen.resetChildren, Gen.isDependent, exWired, IterValueGenerator.toIter]
  refine ⟨hmk, by decide, claim_C3_dependent_correctness .zip "p" exDepLeaves .inf
    "b" "a" exAct exWired (by decide) (by decide) (by decide) (by decide)
    (by
      intro g hg
      simp [exDepLeaves] at hg
      rcases hg with rfl | rfl <;> rfl)
    (by
      intro g hg
      simp [exDepLeaves] at hg
      rcases hg with rfl | rfl <;> simp [mkIterValueGenerator])
    hmk⟩

/-! ### C10: the `None` sentinel collision of `IterValueGenerator` -/

/-- Closed form of a leaf pass that reaches a `None` element: the states
consume the `None`-free values before it, then the `next` call that caches
the `None` element fails with the not-started `RuntimeError` raised by
`self.get()` inside the inherited `ValueGenerator.__next__`. -/
theorem iterAll_to_none (nm : String) (vs : List PyVal) :
    ∀ (k p : Nat) (c : PyVal),
      (∀ i, i < k → vs[p + i]? ≠ some PyVal.none) →
      vs[p + k]? = some PyVal.none →
      (IterValueGenerator.mk nm vs (some p) c .inf).iterAll
        = ((List.range k).map (fun i => passState nm vs (p + i)), .notStarted,
            passState nm vs (p + k)) := by
  intro k
  induction k with
  | zero =>
      intro p c _ hk
      rw [Nat.add_zero] at hk
      have hnext : (IterValueGenerator.mk nm vs (some p) c .inf).next
          = (some .notStarted, passState nm vs p) := by
        simp [IterValueGenerator.next, hk, Lim.isZero, Lim.dec, passState,
          List.getD_eq_getElem?_getD]
      rw [IterValueGenerator.iterAll_stop hnext]
      simp
  | succ k ih =>
      intro p c h0 hk
      have hlen : p + (k + 1) < vs.length := (List.getElem?_eq_some.mp hk).1
      have hlt : p < vs.length := by omega
      have hsome : vs[p]? = some vs[p] := List.getElem?_eq_getElem hlt
      have hvp : vs[p] ≠ PyVal.none := by
        intro hcon
        exact h0 0 (by omega) (by rw [Nat.add_zero, hsome, hcon])
      have hnext : (IterValueGenerator.mk nm vs (some p) c .inf).next
          = (Option.none, IterValueGenerator.mk nm vs (some (p + 1)) vs[p] .inf) := by
        simp only [IterValueGenerator.next, hsome]
        rcases h : vs[p] with _ | _ | _ | _
        · exact absurd h hvp
        all_goals simp [Lim.isZero, Lim.dec, ← h]
      rw [IterValueGenerator.iterAll_ok hnext]
      have h0s : ∀ i, i < k → vs[p + 1 + i]? ≠ some PyVal.none := by
        intro i hi
        have := h0 (i + 1) (by omega)
        rwa [show p + (i + 1) = p + 1 + i from by omega] at this
      have hks : vs[p + 1 + k]? = some PyVal.none := by
        rwa [show p + 1 + k = p + (k + 1) from by omega]
      rw [ih (p + 1) vs[p] h0s hks]
      refine congrArg₂ _ ?_ (congrArg₂ _ rfl ?_)
      · rw [List.range_succ_eq_map, List.map_cons, List.map_map]
        have hhead : passState nm vs (p + 0)
            = IterValueGenerator.mk nm vs (some (p + 1)) vs[p] .inf := by
          simp [passState, List.getD_eq_getElem?_getD, hsome]
        rw [show p + 0 = p from rfl] at hhead
        refine congrArg₂ _ (by rw [← hhead]; simp [passState]) ?_
        apply List.map_congr_left
        intro i _
        simp [Function.comp]
        congr 1
        omega
      · rw [show p + 1 + k = p + (k + 1) from by omega]

/-- C10.  A leaf generator whose value sequence holds `None` at some
position emits exactly the (`None`-free) values before that position and
then fails with the not-started `RuntimeError` when the `None` element is
reached, instead of yielding `None`; at the `get()` interface the
resulting state is indistinguishable from a freshly constructed,
never-advanced generator — both read back the same not-started error,
because `None` doubles as the "no value cached yet" sentinel. -/
theorem claim_C10_none_sentinel (nm : String) (pre post : List PyVal)
    (hpre : ∀ i, i < pre.length → (pre ++ PyVal.none :: post)[i]? ≠ some PyVal.none) :
    ∃ gf : IterValueGenerator,
      permRun (.iterv (mkIterValueGenerator nm (pre ++ PyVal.none :: post)))
        = some (pre, Err.notStarted, .iterv gf)
      ∧ Gen.getCurrent (.iterv gf) = .error Err.notStarted
      ∧ Gen.getCurrent (.iterv (mkIterValueGenerator nm (pre ++ PyVal.none :: post)))
          = .error Err.notStarted := by
  have hk : (pre ++ PyVal.none :: post)[pre.length]? = some PyVal.none := by
    rw [List.getElem?_append_right (le_refl _)]
    simp
  have hrun := iterAll_to_none nm (pre ++ PyVal.none :: post) pre.length 0 PyVal.none
    (by intro i hi; rw [Nat.zero_add]; exact hpre i hi)
    (by rw [Nat.zero_add]; exact hk)
  simp only [Nat.zero_add] at hrun
  refine ⟨passState nm (pre ++ PyVal.none :: post) pre.length, ?_, ?_, ?_⟩
  · simp only [permRun]
    have htoIter : (mkIterValueGenerator nm (pre ++ PyVal.none :: post)).toIter
        = IterValueGenerator.mk nm (pre ++ PyVal.none :: post) (some 0) PyVal.none
            .inf := rfl
    rw [htoIter, hrun]
    have hmap : ((List.range pre.length).map
          (fun i => passState nm (pre ++ PyVal.none :: post) i)).map
        (fun st => st.cached) = pre := by
      rw [List.map_map]
      have hpoint : ∀ i ∈ List.range pre.length,
          ((fun st : IterValueGenerator => st.cached)
            ∘ fun i => passState nm (pre ++ PyVal.none :: post) i) i
            = pre.getD i PyVal.none := by
        intro i hi
        rw [List.mem_range] at hi
        simp [Function.comp, passState, List.getD_eq_getElem?_getD,
          List.getElem?_append_left hi]
      rw [List.map_congr_left hpoint, listRange_getD pre]
    rw [hmap]
  · have hc : (passState nm (pre ++ PyVal.none :: post) pre.length).cached
        = PyVal.none := by
      simp [passState, List.getD_eq_getElem?_getD, hk]
    simp [Gen.getCurrent, Gen.get, IterValueGenerator.get, hc]
  · simp [Gen.getCurrent, Gen.get, IterValueGenerator.get, mkIterValueGenerator]

/-- Concrete run of the C10 theorem: the leaf `x = [1, 2, None, 3]` emits
`1, 2` and then fails with the not-started error. -/
theorem claim_C10_none_sentinel_witness :
    (∀ i, i < ([PyVal.int 1, PyVal.int 2] : List PyVal).length →
      (([PyVal.int 1, PyVal.int 2] : List PyVal)
        ++ PyVal.none :: [PyVal.int 3])[i]? ≠ some PyVal.none)
    ∧ ∃ gf : IterValueGenerator,
        permRun (.iterv (mkIterValueGenerator "x"
            (([PyVal.int 1, PyVal.int 2] : List PyVal) ++ PyVal.none :: [PyVal.int 3])))
          = some ([PyVal.int 1, PyVal.int 2], Err.notStarted, .iterv gf)
        ∧ Gen.getCurrent (.iterv gf) = .error Err.notStarted
        ∧ Gen.getCurrent (.iterv (mkIterValueGenerator "x"
            (([PyVal.int 1, PyVal.int 2] : List PyVal) ++ PyVal.none :: [PyVal.int 3])))
            = .error Err.notStarted := by
  have hpre : ∀ i, i < ([PyVal.int 1, PyVal.int 2] : List PyVal).length →
      (([PyVal.int 1, PyVal.int 2] : List PyVal)
        ++ PyVal.none :: [PyVal.int 3])[i]? ≠ some PyVal.none := by
    intro i hi
    simp only [List.length_cons, List.length_nil] at hi
    interval_cases i <;> simp
  exact ⟨hpre, claim_C10_none_sentinel "x" [PyVal.int 1, PyVal.int 2] [PyVal.int 3] hpre⟩

/-! ### C6: current-value reads before and after the first advance -/

/-- Counterexample to C6 as stated: a childless permuter has never been
advanced, yet `Permuter.get` succeeds — `tuple([])` is just the empty
tuple, no child raises. -/
theorem claim_C6_counterexample :
    Gen.getCurrent (Gen.permuter .zip "p" [] .inf) = .ok (.tuple []) := by
  simp [Gen.getCurrent, Gen.get, Gen.getList, Except.map]

/-- C6 amended.  A freshly constructed leaf fails its `get` with the
not-started `RuntimeError`; so does a permuter that has such a leaf among
its children (the comprehension in `Permuter.get` propagates the child
failure) — the childless permuter is the exception.  After a successful
advance, `get` succeeds with exactly the freshly cached (non-`None`)
value; `get` is a pure read, so repeated reads return the same value. -/
theorem claim_C6_amended (nm : String) (vs : List PyVal) :
    (Gen.getCurrent (.iterv (mkIterValueGenerator nm vs)) = .error .notStarted)
    ∧ (∀ (k : PermKind) (n2 : String) (cs : List Gen) (lim : Lim),
        Gen.getCurrent
            (Gen.permuter k n2 (.iterv (mkIterValueGenerator nm vs) :: cs) lim)
          = .error .notStarted)
    ∧ (∀ (g g1 : IterValueGenerator), g.next = (Option.none, g1) →
        g1.get = .ok g1.cached ∧ g1.cached ≠ PyVal.none
          ∧ Gen.getCurrent (.iterv g1) = .ok g1.cached) := by
  refine ⟨?_, ?_, ?_⟩
  · simp [Gen.getCurrent, Gen.get, IterValueGenerator.get, mkIterValueGenerator]
  · intro k n2 cs lim
    have hsz : (Gen.permuter k n2 (.iterv (mkIterValueGenerator nm vs) :: cs) lim).size + 1
        = (Gen.sizeList (.iterv (mkIterValueGenerator nm vs) :: cs) + 1) + 1 := by
      simp [Gen.size]
      omega
    simp only [Gen.getCurrent]
    rw [hsz]
    have hchild : Gen.get
        (Gen.permuter k n2 (.iterv (mkIterValueGenerator nm vs) :: cs) lim)
        (Gen.sizeList (.iterv (mkIterValueGenerator nm vs) :: cs) + 1)
        (.iterv (mkIterValueGenerator nm vs)) = .error .notStarted := by
      simp [Gen.get, IterValueGenerator.get, mkIterValueGenerator]
    simp [Gen.get, Gen.getList, hchild, Except.map]
  · intro g g1 h
    obtain ⟨p, v, hi, hv, hvn, hz, hg1⟩ := IterValueGenerator.next_ok h
    have hcached : g1.cached = v := by rw [hg1]
    have hget : g1.get = .ok v := by
      rw [hg1]
      rcases v with _ | m | s2 | t
      · exact absurd rfl hvn
      all_goals rfl
    refine ⟨by rw [hget, hcached], by rw [hcached]; exact hvn, ?_⟩
    simp [Gen.getCurrent, Gen.get, hget, hcached]

/-- The state after one successful advance of the leaf `x = [5]`, for the
C6 witness. -/
def exAdvanced : IterValueGenerator :=
  { name := "x", values := [PyVal.int 5], iter := some 1, cached := PyVal.int 5,
    limit := .inf }

/-- Concrete run of the amended C6: the fresh leaf `x = [5]` fails with
the not-started error; after its one successful advance, `get` returns
the cached `5`. -/
theorem claim_C6_amended_witness :
    ((mkIterValueGenerator "x" [PyVal.int 5]).toIter.next
        = (Option.none, exAdvanced))
    ∧ Gen.getCurrent (.iterv (mkIterValueGenerator "x" [PyVal.int 5]))
        = .error .notStarted
    ∧ (exAdvanced.get = .ok exAdvanced.cached ∧ exAdvanced.cached ≠ PyVal.none
        ∧ Gen.getCurrent (.iterv exAdvanced) = .ok exAdvanced.cached) := by
  have hnext : (mkIterValueGenerator "x" [PyVal.int 5]).toIter.next
      = (Option.none, exAdvanced) := rfl
  exact ⟨hnext, (claim_C6_amended "x" [PyVal.int 5]).1,
    (claim_C6_amended "x" [PyVal.int 5]).2.2
      (mkIterValueGenerator "x" [PyVal.int 5]).toIter exAdvanced hnext⟩

/-! ### C7: error behaviour of `make_dependent` path resolution -/

/-- Counterexample to C7 as stated: on a childless permuter,
`make_dependent` returns silently even though the very same path fails to
resolve — the `if not self._generators: return` guard fires before any
resolution. -/
theorem claim_C7_counterexample :
    makeDependent (Gen.permuter .zip "p" [] .inf) ["nosuch"] ["missing"]
        (fun v => v) = .ok (Gen.permuter .zip "p" [] .inf)
    ∧ resolveChild (Gen.permuter .zip "p" [] .inf) ["nosuch"]
        = .error Err.pathUnresolved :=
  ⟨rfl, rfl⟩

/-- C7 amended.  On a permuter with at least one child, `make_dependent`
propagates the first resolution failure (source first, then target)
before any substitution: an unknown name among the children fails with
the path-unresolved `MessageNotFound`, and a non-final path component
that resolves to a non-permuter (leaf or dependent) fails with the
wrong-type `MessageNotFound`.  The error returns before `container[idx]`
is assigned, so the tree is left as it was. -/
theorem claim_C7_amended (k : PermKind) (n : String) (cs : List Gen) (lim : Lim)
    (src tgt : List String) (act : PyVal → PyVal) (hne : cs ≠ []) :
    (∀ e, resolveChild (Gen.permuter k n cs lim) src = .error e →
        makeDependent (Gen.permuter k n cs lim) src tgt act = .error e)
    ∧ (∀ addr e, resolveChild (Gen.permuter k n cs lim) src = .ok addr →
        resolveChild (Gen.permuter k n cs lim) tgt = .error e →
        makeDependent (Gen.permuter k n cs lim) src tgt act = .error e)
    ∧ (∀ (p : String) (rest : List String), findChild cs p = Option.none →
        resolveChild (Gen.permuter k n cs lim) (p :: rest)
          = .error .pathUnresolved)
    ∧ (∀ (p q : String) (rest : List String) (i : Nat) (g0 : IterValueGenerator),
        findChild cs p = some (i, .iterv g0) →
        resolveChild (Gen.permuter k n cs lim) (p :: q :: rest)
          = .error .badElementPath)
    ∧ (∀ (p q : String) (rest : List String) (i : Nat) (nmD : String)
        (t : List Nat) (a : PyVal → PyVal) (l : Lim),
        findChild cs p = some (i, .dependent nmD t a l) →
        resolveChild (Gen.permuter k n cs lim) (p :: q :: rest)
          = .error .badElementPath) := by
  refine ⟨?_, ?_, ?_, ?_, ?_⟩
  · intro e he
    rw [makeDependent_cons k n cs lim src tgt act hne]
    simp only [he]
  · intro addr e hsrc htgt
    rw [makeDependent_cons k n cs lim src tgt act hne]
    simp only [hsrc, htgt]
  · intro p rest hf
    simp [resolveChild, resolveComponents, hf]
  · intro p q rest i g0 hf
    simp [resolveChild, resolveComponents, hf]
  · intro p q rest i nmD t a l hf
    simp [resolveChild, resolveComponents, hf]

/-- Concrete run of the amended C7 on the one-leaf permuter `a = [1]`:
an unknown source name surfaces the path-unresolved error from
`make_dependent`, and a nested path through the leaf `a` fails with the
wrong-type error. -/
theorem claim_C7_amended_witness :
    makeDependent
        (Gen.permuter .zip "p" [Gen.iterv (mkIterValueGenerator "a" [PyVal.int 1])] .inf)
        ["zz"] ["zz"] (fun v => v) = .error Err.pathUnresolved
    ∧ resolveChild
        (Gen.permuter .zip "p" [Gen.iterv (mkIterValueGenerator "a" [PyVal.int 1])] .inf)
        ["a", "x"] = .error Err.badElementPath := by
  have hres : resolveChild
      (Gen.permuter .zip "p" [Gen.iterv (mkIterValueGenerator "a" [PyVal.int 1])] .inf)
      ["zz"] = .error Err.pathUnresolved := rfl
  have hfind : findChild [Gen.iterv (mkIterValueGenerator "a" [PyVal.int 1])] "a"
      = some (0, Gen.iterv (mkIterValueGenerator "a" [PyVal.int 1])) := rfl
  exact ⟨(claim_C7_amended .zip "p"
      [Gen.iterv (mkIterValueGenerator "a" [PyVal.int 1])] .inf ["zz"] ["zz"]
      (fun v => v) (by simp)).1 Err.pathUnresolved hres,
    (claim_C7_amended .zip "p"
      [Gen.iterv (mkIterValueGenerator "a" [PyVal.int 1])] .inf ["zz"] ["zz"]
      (fun v => v) (by simp)).2.2.2.1 "a" "x" [] 0
      (mkIterValueGenerator "a" [PyVal.int 1]) hfind⟩

/-! ### C8: the substitution and frame effect of `make_dependent` -/

/-- A mid-iteration state of the leaf `a = [1, 2]` (cursor past both
values), for the C8 counterexample. -/
def exMidA : IterValueGenerator :=
  { name := "a", values := [PyVal.int 1, PyVal.int 2], iter := some 2,
    cached := PyVal.int 2, limit := .inf }

/-- A mid-iteration state of the leaf `b = [10, 20]`, for the C8
counterexample. -/
def exMidB : IterValueGenerator :=
  { name := "b", values := [PyVal.int 10, PyVal.int 20], iter := some 2,
    cached := PyVal.int 20, limit := .inf }

/-- Counterexample to C8 as stated: `make_dependent` does not leave every
other child unchanged — its closing `_update_independent_generators()`
re-runs `iter(_)` on every remaining independent child, so the sibling
leaf `a` (genuinely mid-iteration: the exhibited state is reached by two
advances from fresh) comes out with its cursor reset from position 2 to
position 0. -/
theorem claim_C8_counterexample :
    ((mkIterValueGenerator "a" [PyVal.int 1, PyVal.int 2]).toIter.next.2).next.2
        = exMidA
    ∧ makeDependent (Gen.permuter .zip "p" [Gen.iterv exMidA, Gen.iterv exMidB] .inf)
        ["b"] ["a"] exAct
        = .ok (Gen.permuter .zip "p"
            [Gen.iterv exMidA.toIter, Gen.dependent "b" [0] exAct .inf] .inf)
    ∧ exMidA.iter = some 2 ∧ exMidA.toIter.iter = some 0 := by
  refine ⟨rfl, ?_, rfl, rfl⟩
  simp [makeDependent, resolveChild, resolveComponents, findChild, Gen.name,
    exMidA, exMidB, nodeAt, replaceAt, Gen.toIter, Gen.resetChildren,
    Gen.isDependent, IterValueGenerator.toIter]

/-- C8 amended.  A successful `make_dependent(source, target, transform)`
on a flat permuter with distinct child names replaces the source child in
place: at the source's index now sits a dependent generator carrying the
old child's name and the target's address, the target resolves to the
(re-`iter`-ed) target leaf, every other slot holds its original child
except for the cursor reset of the closing
`_update_independent_generators()`, and the independent-children set is
recomputed without the new dependent. -/
theorem claim_C8_amended (k : PermKind) (n : String)
    (leaves : List IterValueGenerator) (lim : Lim) (src tgt : String)
    (act : PyVal → PyVal) (root2 : Gen)
    (hne : src ≠ tgt)
    (hs : src ∈ leaves.map (fun g => g.name))
    (ht : tgt ∈ leaves.map (fun g => g.name))
    (hmk : makeDependent (Gen.permuter k n (leaves.map Gen.iterv) lim)
        [src] [tgt] act = .ok root2) :
    ∃ (isrc jtgt : Nat) (lsrc ltgt : IterValueGenerator),
      leaves[isrc]? = some lsrc ∧ lsrc.name = src
      ∧ leaves[jtgt]? = some ltgt ∧ ltgt.name = tgt ∧ isrc ≠ jtgt
      ∧ root2 = Gen.permuter k n (((leaves.map IterValueGenerator.toIter).map Gen.iterv).set isrc
        (Gen.dependent lsrc.name [jtgt] act .inf)) lim
      ∧ (((leaves.map IterValueGenerator.toIter).map Gen.iterv).set isrc
        (Gen.dependent lsrc.name [jtgt] act .inf))[isrc]? = some (Gen.dependent lsrc.name [jtgt] act .inf)
      ∧ nodeAt root2 [jtgt] = some (Gen.iterv ltgt.toIter)
      ∧ (∀ idx, idx ≠ isrc →
          (((leaves.map IterValueGenerator.toIter).map Gen.iterv).set isrc
        (Gen.dependent lsrc.name [jtgt] act .inf))[idx]? = (leaves[idx]?).map (fun g => Gen.iterv g.toIter))
      ∧ independentLeaves (((leaves.map IterValueGenerator.toIter).map Gen.iterv).set isrc
        (Gen.dependent lsrc.name [jtgt] act .inf))
          = some ((leaves.map IterValueGenerator.toIter).eraseIdx isrc) := by
  obtain ⟨isrc, csrc, hfs⟩ := findChild_of_mem (leaves.map Gen.iterv) src
    (by rw [List.map_map]; exact hs)
  obtain ⟨hcs_s0, hname_s⟩ := findChild_spec (leaves.map Gen.iterv) src isrc csrc hfs
  obtain ⟨jtgt, ctgt, hft⟩ := findChild_of_mem (leaves.map Gen.iterv) tgt
    (by rw [List.map_map]; exact ht)
  obtain ⟨hcs_t0, hname_t⟩ := findChild_spec (leaves.map Gen.iterv) tgt jtgt ctgt hft
  have hsrc_ex : ∃ lsrc, leaves[isrc]? = some lsrc ∧ csrc = Gen.iterv lsrc := by
    rw [List.getElem?_map] at hcs_s0
    cases hx : leaves[isrc]? with
    | none => rw [hx] at hcs_s0; simp at hcs_s0
    | some l0 =>
        rw [hx] at hcs_s0
        simp only [Option.map_some', Option.some.injEq] at hcs_s0
        exact ⟨l0, rfl, hcs_s0.symm⟩
  obtain ⟨lsrc, hl_s, rfl⟩ := hsrc_ex
  have htgt_ex : ∃ ltgt, leaves[jtgt]? = some ltgt ∧ ctgt = Gen.iterv ltgt := by
    rw [List.getElem?_map] at hcs_t0
    cases hx : leaves[jtgt]? with
    | none => rw [hx] at hcs_t0; simp at hcs_t0
    | some l0 =>
        rw [hx] at hcs_t0
        simp only [Option.map_some', Option.some.injEq] at hcs_t0
        exact ⟨l0, rfl, hcs_t0.symm⟩
  obtain ⟨ltgt, hl_t, rfl⟩ := htgt_ex
  have hsrc_name : lsrc.name = src := hname_s
  have htgt_name : ltgt.name = tgt := hname_t
  have hisrc_lt : isrc < leaves.length := (List.getElem?_eq_some.mp hl_s).1
  have hjtgt_lt : jtgt < leaves.length := (List.getElem?_eq_some.mp hl_t).1
  have hij : isrc ≠ jtgt := by
    intro hcontra
    apply hne
    rw [← hsrc_name, ← htgt_name]
    have hll : some lsrc = some ltgt := by rw [← hl_s, ← hl_t, hcontra]
    cases hll
    rfl
  have hne_cs : (leaves.map Gen.iterv) ≠ [] := by
    intro hc
    have hlen : (leaves.map Gen.iterv).length = 0 := by rw [hc]; rfl
    rw [List.length_map] at hlen
    omega
  have hcs_s2 : (leaves.map Gen.iterv)[isrc]? = some (Gen.iterv lsrc) := by
    rw [List.getElem?_map, hl_s]
    rfl
  have hres_s := resolveChild_single k n (leaves.map Gen.iterv) lim src isrc
    (Gen.iterv lsrc) hfs
  have hres_t := resolveChild_single k n (leaves.map Gen.iterv) lim tgt jtgt
    (Gen.iterv ltgt) hft
  simp only [makeDependent_cons k n (leaves.map Gen.iterv) lim [src] [tgt] act hne_cs,
    hres_s, hres_t,
    nodeAt_one k n (leaves.map Gen.iterv) lim isrc (Gen.iterv lsrc) hcs_s2,
    Gen.name,
    replaceAt_one k n (leaves.map Gen.iterv) lim isrc (Gen.iterv lsrc)
      (Gen.dependent lsrc.name [jtgt] act .inf) hcs_s2,
    Gen.toIter, resetChildren_set_dep, resetChildren_map_iterv,
    Except.ok.injEq] at hmk
  subst hmk
  have hisrc_lt2 : isrc < (leaves.map IterValueGenerator.toIter).length := by
    simpa using hisrc_lt
  have hdepidx : (((leaves.map IterValueGenerator.toIter).map Gen.iterv).set isrc
        (Gen.dependent lsrc.name [jtgt] act .inf))[isrc]?
      = some (Gen.dependent lsrc.name [jtgt] act .inf) :=
    getElem?_set_self _ isrc _ (by simpa using hisrc_lt)
  have hleafidx : (((leaves.map IterValueGenerator.toIter).map Gen.iterv).set isrc
        (Gen.dependent lsrc.name [jtgt] act .inf))[jtgt]?
      = some (Gen.iterv ltgt.toIter) := by
    rw [getElem?_set_ne _ isrc jtgt _ hij]
    simp [List.getElem?_map, hl_t]
  refine ⟨isrc, jtgt, lsrc, ltgt, hl_s, hsrc_name, hl_t, htgt_name, hij, rfl,
    hdepidx, nodeAt_one k n _ lim jtgt (Gen.iterv ltgt.toIter) hleafidx, ?_, ?_⟩
  · intro idx hidx
    rw [getElem?_set_ne _ isrc idx _ (fun hc => hidx hc.symm)]
    cases hx : leaves[idx]? with
    | none => simp [List.getElem?_map, hx]
    | some g0 => simp [List.getElem?_map, hx]
  · exact independentLeaves_set_dep lsrc.name [jtgt] act .inf
      (leaves.map IterValueGenerator.toIter) isrc hisrc_lt2

/-- Concrete run of the amended C8 on `a = [1,2]`, `b = [10,20]`: wiring
`b` onto `a` puts the dependent at slot 1 under the name `b`, targeting
slot 0, with slot 0 still holding the (re-`iter`-ed) leaf `a`. -/
theorem claim_C8_amended_witness :
    (makeDependent (Gen.permuter .zip "p" (exDepLeaves.map Gen.iterv) .inf)
        ["b"] ["a"] exAct = .ok exWired)
    ∧ ∃ (isrc jtgt : Nat) (lsrc ltgt : IterValueGenerator),
        exDepLeaves[isrc]? = some lsrc ∧ lsrc.name = "b"
        ∧ exDepLeaves[jtgt]? = some ltgt ∧ ltgt.name = "a" ∧ isrc ≠ jtgt
        ∧ exWired = Gen.permuter .zip "p"
            (((exDepLeaves.map IterValueGenerator.toIter).map Gen.iterv).set isrc
              (Gen.dependent lsrc.name [jtgt] exAct .inf)) .inf
        ∧ (((exDepLeaves.map IterValueGenerator.toIter).map Gen.iterv).set isrc
              (Gen.dependent lsrc.name [jtgt] exAct .inf))[isrc]?
            = some (Gen.dependent lsrc.name [jtgt] exAct .inf)
        ∧ nodeAt exWired [jtgt] = some (Gen.iterv ltgt.toIter)
        ∧ (∀ idx, idx ≠ isrc →
            (((exDepLeaves.map IterValueGenerator.toIter).map Gen.iterv).set isrc
              (Gen.dependent lsrc.name [jtgt] exAct .inf))[idx]?
              = (exDepLeaves[idx]?).map (fun g => Gen.iterv g.toIter))
        ∧ independentLeaves
              (((exDepLeaves.map IterValueGenerator.toIter).map Gen.iterv).set isrc
                (Gen.dependent lsrc.name [jtgt] exAct .inf))
            = some ((exDepLeaves.map IterValueGenerator.toIter).eraseIdx isrc) := by
  have hmk : makeDependent (Gen.permuter .zip "p" (exDepLeaves.map Gen.iterv) .inf)
      ["b"] ["a"] exAct = .ok exWired := by
    simp [makeDependent, exDepLeaves, mkIterValueGenerator, resolveChild,
      resolveComponents, findChild, Gen.name, nodeAt, replaceAt, Gen.toIter,
      Gen.resetChildren, Gen.isDependent, exWired, IterValueGenerator.toIter]
  exact ⟨hmk, claim_C8_amended .zip "p" exDepLeaves .inf "b" "a" exAct exWired
    (by decide) (by decide) (by decide) hmk⟩

/-! ### C5: determinism across restarts -/

/-- Configuration equality of the final leaves: name map, values map,
unbounded limits, and equal length. -/
theorem forall₂_cfg_maps :
    ∀ (l1 l2 : List IterValueGenerator),
      List.Forall₂ (fun a b => a.name = b.name ∧ a.values = b.values
        ∧ b.limit = .inf) l1 l2 →
      l2.map (fun g => g.name) = l1.map (fun g => g.name)
      ∧ l2.map (fun g => g.values) = l1.map (fun g => g.values)
      ∧ (∀ g ∈ l2, g.limit = .inf)
      ∧ l2.length = l1.length := by
  intro l1 l2 h
  induction h with
  | nil => exact ⟨rfl, rfl, by simp, rfl⟩
  | cons h1 h2 ih =>
      obtain ⟨i1, i2, i3, i4⟩ := ih
      refine ⟨by simp [i1, h1.1], by simp [i2, h1.2.1], ?_, by simp [i4]⟩
      intro g hg
      rcases List.mem_cons.mp hg with rfl | hg2
      · exact h1.2.2
      · exact i3 g hg2

/-- C5 amended.  With an unbounded limit, two consecutive full iterations
of a flat permuter over leaf children emit identical tuple sequences:
restarting from the final state resets every independent cursor and
replays the same labeled choices.  (With a finite limit this fails — the
limit is consumed across restarts, see the counterexample.) -/
theorem claim_C5_determinism (k : PermKind) (n : String)
    (leaves : List IterValueGenerator)
    (hne : leaves ≠ [])
    (hinf : ∀ g ∈ leaves, g.limit = .inf)
    (hnn : ∀ g ∈ leaves, ∀ v ∈ g.values, v ≠ PyVal.none) :
    ∃ (out : List PyVal) (e1 e2 : Err) (leaves2 leaves3 : List IterValueGenerator),
      permRun (Gen.permuter k n (leaves.map Gen.iterv) .inf)
        = some (out, e1, Gen.permuter k n (leaves2.map Gen.iterv) .inf)
      ∧ permRun (Gen.permuter k n (leaves2.map Gen.iterv) .inf)
        = some (out, e2, Gen.permuter k n (leaves3.map Gen.iterv) .inf) := by
  cases k with
  | zip =>
      obtain ⟨e1, lv2, lim2, hrun1, hcfg, hlim⟩ := permRun_zip n leaves .inf hne hinf hnn
      obtain ⟨hm1, hm2, hm3, hm4⟩ := forall₂_cfg_maps leaves lv2 hcfg
      have hlim2 : lim2 = .inf := hlim rfl
      subst hlim2
      have hne2 : lv2 ≠ [] := by
        intro hc
        have : lv2.length = 0 := by rw [hc]; rfl
        rw [hm4] at this
        exact hne (List.length_eq_zero.mp this)
      have hnn2 : ∀ g ∈ lv2, ∀ v ∈ g.values, v ≠ PyVal.none := by
        intro g hg
        have hv : g.values ∈ leaves.map (fun g => g.values) := by
          rw [← hm2]
          exact List.mem_map_of_mem _ hg
        obtain ⟨g0, hg0, hvv⟩ := List.mem_map.mp hv
        rw [← hvv]
        exact hnn g0 hg0
      obtain ⟨e2, lv3, lim3, hrun2, hcfg2, hlim2'⟩ := permRun_zip n lv2 .inf hne2 hm3 hnn2
      have hlim3 : lim3 = .inf := hlim2' rfl
      subst hlim3
      rw [hm1, hm2] at hrun2
      exact ⟨_, e1, e2, lv2, lv3, hrun1, hrun2⟩
  | product =>
      obtain ⟨e1, lv2, lim2, hrun1, hcfg, hlim⟩ := permRun_product n leaves .inf hinf hnn
      obtain ⟨hm1, hm2, hm3, hm4⟩ := forall₂_cfg_maps leaves lv2 hcfg
      have hlim2 : lim2 = .inf := hlim rfl
      subst hlim2
      have hnn2 : ∀ g ∈ lv2, ∀ v ∈ g.values, v ≠ PyVal.none := by
        intro g hg
        have hv : g.values ∈ leaves.map (fun g => g.values) := by
          rw [← hm2]
          exact List.mem_map_of_mem _ hg
        obtain ⟨g0, hg0, hvv⟩ := List.mem_map.mp hv
        rw [← hvv]
        exact hnn g0 hg0
      obtain ⟨e2, lv3, lim3, hrun2, hcfg2, hlim2'⟩ := permRun_product n lv2 .inf hm3 hnn2
      have hlim3 : lim3 = .inf := hlim2' rfl
      subst hlim3
      rw [hm1, hm2] at hrun2
      exact ⟨_, e1, e2, lv2, lv3, hrun1, hrun2⟩

/-- Concrete run of the amended C5: the zip permuter over `a = [1, 2]`
with no limit override emits the same two tuples on two consecutive full
iterations. -/
theorem claim_C5_determinism_witness :
    ([mkIterValueGenerator "a" [PyVal.int 1, PyVal.int 2]]
        ≠ ([] : List IterValueGenerator))
    ∧ ∃ (out : List PyVal) (e1 e2 : Err)
        (leaves2 leaves3 : List IterValueGenerator),
        permRun (Gen.permuter .zip "p"
            ([mkIterValueGenerator "a" [PyVal.int 1, PyVal.int 2]].map Gen.iterv) .inf)
          = some (out, e1, Gen.permuter .zip "p" (leaves2.map Gen.iterv) .inf)
        ∧ permRun (Gen.permuter .zip "p" (leaves2.map Gen.iterv) .inf)
          = some (out, e2, Gen.permuter .zip "p" (leaves3.map Gen.iterv) .inf) := by
  refine ⟨by simp, claim_C5_determinism .zip "p"
    [mkIterValueGenerator "a" [PyVal.int 1, PyVal.int 2]] (by simp) ?_ ?_⟩
  · intro g hg
    simp at hg
    subst hg
    rfl
  · intro g hg
    simp at hg
    subst hg
    simp [mkIterValueGenerator]

/-- The fresh cursor state of the leaf `a = [1, 2]`. -/
def c5A0 : IterValueGenerator :=
  { name := "a", values := [PyVal.int 1, PyVal.int 2], iter := some 0,
    cached := PyVal.none, limit := .inf }

/-- The leaf `a = [1, 2]` after one advance. -/
def c5S1 : IterValueGenerator :=
  { name := "a", values := [PyVal.int 1, PyVal.int 2], iter := some 1,
    cached := PyVal.int 1, limit := .inf }

/-- The leaf `a = [1, 2]` after two advances. -/
def c5S2 : IterValueGenerator :=
  { name := "a", values := [PyVal.int 1, PyVal.int 2], iter := some 2,
    cached := PyVal.int 2, limit := .inf }

/-- The exhausted leaf after a restart: cursor reset, cache kept. -/
def c5R0 : IterValueGenerator :=
  { name := "a", values := [PyVal.int 1, PyVal.int 2], iter := some 0,
    cached := PyVal.int 2, limit := .inf }

/-- The Zip stepping trace over the fresh leaf `a = [1, 2]` alone. -/
theorem c5_step_fresh :
    Zip.stepGenerator c5A0 [] = ([[c5S1], [c5S2]], Err.stopIteration, [c5S2]) := by
  rw [Zip.stepGenerator_ok (show c5A0.next = (Option.none, c5S1) from rfl)
    (show zipStepAll [] = (Option.none, []) from rfl)]
  rw [Zip.stepGenerator_ok (show c5S1.next = (Option.none, c5S2) from rfl)
    (show zipStepAll [] = (Option.none, []) from rfl)]
  rw [Zip.stepGenerator_head_fail
    (show c5S2.next = (some Err.stopIteration, c5S2) from rfl)]

/-- The Zip stepping trace over the restarted leaf: identical rows. -/
theorem c5_step_restart :
    Zip.stepGenerator c5R0 [] = ([[c5S1], [c5S2]], Err.stopIteration, [c5S2]) := by
  rw [Zip.stepGenerator_ok (show c5R0.next = (Option.none, c5S1) from rfl)
    (show zipStepAll [] = (Option.none, []) from rfl)]
  rw [Zip.stepGenerator_ok (show c5S1.next = (Option.none, c5S2) from rfl)
    (show zipStepAll [] = (Option.none, []) from rfl)]
  rw [Zip.stepGenerator_head_fail
    (show c5S2.next = (some Err.stopIteration, c5S2) from rfl)]

/-- Counterexample to C5 as stated: the same permuter instance — fixed
children, fixed (empty) dependency wiring — iterated to exhaustion twice
does NOT yield identical sequences when a finite limit is set: with
`set_limit(1)` over `a = [1, 2]`, the first full iteration emits one
tuple, the second emits none, because restarting resets the independent
cursors but not the already-consumed `_limit`. -/
theorem claim_C5_counterexample :
    permRun (Gen.setLimit (mkPermuter .zip "p"
        [Gen.iterv (mkIterValueGenerator "a" [PyVal.int 1, PyVal.int 2])]) (.fin 1))
      = some ([PyVal.tuple [("a", PyVal.int 1)]], Err.stopIteration,
          Gen.permuter .zip "p" [Gen.iterv c5S2] (.fin 0))
    ∧ permRun (Gen.permuter .zip "p" [Gen.iterv c5S2] (.fin 0))
      = some ([], Err.stopIteration,
          Gen.permuter .zip "p" [Gen.iterv c5S1] (.fin 0))
    ∧ ([PyVal.tuple [("a", PyVal.int 1)]] : List PyVal) ≠ [] := by
  have hz1 : Lim.isZero (.fin 1) = false := rfl
  have hz0 : Lim.isZero (.fin 0) = true := rfl
  have hd1 : Lim.dec (.fin 1) = .fin 0 := rfl
  have hget1 : (Gen.permuter PermKind.zip "p" [Gen.iterv c5S1] (Lim.fin 1)).getCurrent
      = .ok (PyVal.tuple [("a", PyVal.int 1)]) := by
    rw [show ([Gen.iterv c5S1] : List Gen) = [c5S1].map Gen.iterv from rfl]
    rw [getCurrent_flat .zip "p" (Lim.fin 1) [c5S1] ?hc]
    · rfl
    case hc =>
      intro st hst
      simp at hst
      subst hst
      simp [c5S1]
  have hshape : Gen.setLimit (mkPermuter .zip "p"
      [Gen.iterv (mkIterValueGenerator "a" [PyVal.int 1, PyVal.int 2])]) (.fin 1)
      = Gen.permuter .zip "p" [Gen.iterv c5A0] (.fin 1) := by
    simp [mkPermuter, Gen.toIter, Gen.resetChildren, Gen.isDependent, Gen.setLimit,
      mkIterValueGenerator, IterValueGenerator.toIter, c5A0]
  have hreset1 : Gen.resetChildren [Gen.iterv c5A0] = [Gen.iterv c5A0] := by
    simp [Gen.resetChildren, Gen.isDependent, Gen.toIter, IterValueGenerator.toIter,
      c5A0]
  have hreset2 : Gen.resetChildren [Gen.iterv c5S2] = [Gen.iterv c5R0] := by
    simp [Gen.resetChildren, Gen.isDependent, Gen.toIter, IterValueGenerator.toIter,
      c5S2, c5R0]
  have htI1 : c5A0.toIter = c5A0 := rfl
  have htI2 : c5S2.toIter = c5R0 := rfl
  refine ⟨?_, ?_, by simp⟩
  · rw [hshape]
    simp only [permRun, hreset1, htI1, independentLeaves, Option.map_some',
      c5_step_fresh, consume, hz1, hz0, hd1, hget1, writeIndependents]
    simp
  · simp only [permRun, hreset2, htI2, independentLeaves, Option.map_some',
      c5_step_restart, consume, hz0, writeIndependents]
    simp

end Protofuzz
